import Mathlib

/-!
Verification of the MIDI Clean V3 reconstruction engine (`src/midi_clean.py`)
against its natural-language specification.

The Python source is shallowly embedded below. Conventions used throughout:

* Python integers are `Int`; machine overflow does not occur in Python, so no
  modular arithmetic is introduced.
* Python's float arithmetic (`round(tick / grid)`, `grid * 0.9`,
  `int(grid * swing_amount)`, `int(velocity * scale)`) is modelled as exact
  rational arithmetic expressed over integers: user-supplied float parameters
  are passed as an integer fraction `num/den`, `int(...)` is `Int.tdiv`
  (truncation toward zero, exactly Python's `int()` on a fraction), and
  `round` is round-half-to-even (Python 3 `round`), written with `ediv`/`emod`.
* `random.randint(-a, a)` draws are modelled as an oracle `offs : Nat → Int`
  giving the draw for each note index.
* Python `dict` (`active_notes`) is modelled as a total function into `Option`,
  `dict.pop` as erasure; `sorted`/`list.sort` (stable) as
  `List.insertionSort`, which is a stable sort and therefore produces the
  identical list for the identical key relation.
-/

/-- `NoteEvent` dataclass: a MIDI note with timing and velocity. -/
structure NoteEvent where
  pitch : Int
  velocity : Int
  start_tick : Int
  end_tick : Int
  channel : Int
  track_idx : Nat
deriving DecidableEq, Repr

/-- A raw MIDI message as iterated by `parse_notes`: note_on / note_off
carry `(note, velocity, channel)` and a delta `time`; every other message
kind (meta or otherwise) only contributes its delta time, which is all
`parse_notes` and `reconstruct_midi` use of it. -/
inductive Msg where
  | noteOn (note velocity channel time : Int)
  | noteOff (note velocity channel time : Int)
  | meta (time : Int)
deriving DecidableEq, Repr

/-- Key of the `active_notes` dict: `(track_idx, channel, note)`. -/
abbrev NKey := Nat × Int × Int

/-- The `active_notes` dict: key to pending `start_tick`. -/
def Active := NKey → Option Int

def Active.empty : Active := fun _ => none

def Active.set (a : Active) (k : NKey) (v : Int) : Active :=
  fun k2 => if k2 = k then some v else a k2

def Active.erase (a : Active) (k : NKey) : Active :=
  fun k2 => if k2 = k then none else a k2

/-- Running state of `parse_notes` inside one track: `current_tick`, the
`active_notes` dict (shared across tracks), and the `notes` list built so
far in this track. -/
structure PState where
  tick : Int
  active : Active
  notes : List NoteEvent

/-- The `note_off or (note_on and velocity == 0)` branch of `parse_notes`:
close the pending note for `(track, channel, pitch)` if any, recording
`msg.velocity if msg.type == 'note_on' else 64` as the note's velocity
(`velField` is that already-selected value). -/
def closeNote (i : Nat) (note ch velField tick : Int) (s : PState) : PState :=
  match s.active (i, ch, note) with
  | some st =>
      { tick := tick
        active := s.active.erase (i, ch, note)
        notes := s.notes ++ [⟨note, velField, st, tick, ch, i⟩] }
  | none => { tick := tick, active := s.active, notes := s.notes }

/-- One message of the `parse_notes` loop body for track `i`. -/
def parseStep (i : Nat) (s : PState) (m : Msg) : PState :=
  match m with
  | .noteOn note vel ch t =>
      let tick := s.tick + t
      if 0 < vel then
        { tick := tick, active := s.active.set (i, ch, note) tick, notes := s.notes }
      else if vel = 0 then
        closeNote i note ch vel tick s
      else
        { tick := tick, active := s.active, notes := s.notes }
  | .noteOff note _vel ch t =>
      closeNote i note ch 64 (s.tick + t) s
  | .meta t => { tick := s.tick + t, active := s.active, notes := s.notes }

/-- Run `parse_notes`'s inner loop over one track, starting from
`current_tick = 0` and the carried-over `active_notes` dict. -/
def parseTrack (i : Nat) (a : Active) (msgs : List Msg) : PState :=
  msgs.foldl (parseStep i) ⟨0, a, []⟩

/-- The outer loop of `parse_notes` over the enumerated tracks; the per-track
note lists are appended in track order, and `active_notes` is carried. -/
def parseTracksAux (i : Nat) (a : Active) : List (List Msg) → List NoteEvent
  | [] => []
  | tr :: rest =>
      let s := parseTrack i a tr
      s.notes ++ parseTracksAux (i + 1) s.active rest

/-- `MIDIProcessor.parse_notes`: extract note events from the MIDI tracks. -/
def parse_notes (tracks : List (List Msg)) : List NoteEvent :=
  parseTracksAux 0 Active.empty tracks

/-- `MIDIProcessor.get_quantize_ticks`: `int(ticks_per_beat * 4 * num / den)`
for a division string `num/den` (exact truncation toward zero). -/
def get_quantize_ticks (ticks_per_beat num den : Int) : Int :=
  Int.tdiv (ticks_per_beat * 4 * num) den

/-- `MIDIProcessor.quantize_tick`: `round(tick / grid) * grid` with Python 3
`round`, i.e. round-half-to-even on the exact quotient. For `grid > 0`,
`tick / grid` (ediv) is the floor quotient and `tick % grid` the remainder. -/
def quantize_tick (tick grid : Int) : Int :=
  if 2 * (tick % grid) < grid then (tick / grid) * grid
  else if grid < 2 * (tick % grid) then (tick / grid + 1) * grid
  else if (tick / grid) % 2 = 0 then (tick / grid) * grid
  else (tick / grid + 1) * grid

/-- The `--quantize` body of `MIDIProcessor.process`: quantize each start and
recompute the end from the preserved duration. -/
def quantizeStage (grid : Int) (notes : List NoteEvent) : List NoteEvent :=
  notes.map fun n =>
    let duration := n.end_tick - n.start_tick
    let s := quantize_tick n.start_tick grid
    { n with start_tick := s, end_tick := s + duration }

/-- The key relation of `sorted(notes, key=lambda n: n.start_tick)`. -/
def startLe (a b : NoteEvent) : Prop := a.start_tick ≤ b.start_tick

instance : DecidableRel startLe := fun a b => by unfold startLe; infer_instance

instance : IsTotal NoteEvent startLe := ⟨fun a b => le_total a.start_tick b.start_tick⟩

instance : IsTrans NoteEvent startLe := ⟨fun _ _ _ h1 h2 => le_trans h1 h2⟩

/-- `sorted(notes, key=lambda n: n.start_tick)` (stable). -/
def sortByStart (notes : List NoteEvent) : List NoteEvent :=
  List.insertionSort startLe notes

/-- The cluster-building sweep of `straighten_chords`: `pre ++ [last]` is the
current cluster, `last` its most recent member. -/
def clustersGo (window : Int) (pre : List NoteEvent) (last : NoteEvent) :
    List NoteEvent → List (List NoteEvent)
  | [] => [pre ++ [last]]
  | n :: rest =>
      if n.start_tick - last.start_tick ≤ window then
        clustersGo window (pre ++ [last]) n rest
      else
        (pre ++ [last]) :: clustersGo window [] n rest

/-- The clusters formed by `straighten_chords` over the sorted notes. -/
def clustersOf (window : Int) (notes : List NoteEvent) : List (List NoteEvent) :=
  match sortByStart notes with
  | [] => []
  | n :: rest => clustersGo window [] n rest

/-- Align one cluster of `straighten_chords`: clusters of size ≥ 2 move every
member to the floor-mean onset (`sum // len`), preserving durations. -/
def alignCluster (c : List NoteEvent) : List NoteEvent :=
  if 1 < c.length then
    let m := Int.fdiv (c.map (·.start_tick)).sum (c.length : Int)
    c.map fun n => { n with start_tick := m, end_tick := m + (n.end_tick - n.start_tick) }
  else c

/-- `MIDIProcessor.straighten_chords` (the source's default window is 20;
callers pass it explicitly here). -/
def straighten_chords (notes : List NoteEvent) (window : Int) : List NoteEvent :=
  ((clustersOf window notes).map alignCluster).flatten

/-- `MIDIProcessor.apply_swing` with `swing_amount = swingNum / swingDen`
(the user float, exactly). `beat_position >= grid_ticks * 0.9` is the exact
comparison `beat ≥ (9/10) * grid`, written `10 * beat ≥ 9 * grid`; the
offset is `int(grid_ticks * swing_amount)`, truncation toward zero. -/
def apply_swing (ticks_per_beat swingNum swingDen : Int) (notes : List NoteEvent) :
    List NoteEvent :=
  let grid := get_quantize_ticks ticks_per_beat 1 16
  notes.map fun n =>
    let beat := n.start_tick % (grid * 2)
    if 9 * grid ≤ 10 * beat then
      let offset := Int.tdiv (grid * swingNum) swingDen
      let duration := n.end_tick - n.start_tick
      let s := n.start_tick + offset
      { n with start_tick := s, end_tick := s + duration }
    else n

/-- `MIDIProcessor.humanize_timing`; the i-th `random.randint(-amount, amount)`
draw is `offs i`. -/
def humanize_timing (offs : Nat → Int) (notes : List NoteEvent) : List NoteEvent :=
  notes.mapIdx fun i n =>
    let duration := n.end_tick - n.start_tick
    let s := max 0 (n.start_tick + offs i)
    { n with start_tick := s, end_tick := s + duration }

/-- `MIDIProcessor.scale_velocity` with `scale = scaleNum / scaleDen`:
`max(1, min(127, int(velocity * scale)))`. -/
def scale_velocity (scaleNum scaleDen : Int) (notes : List NoteEvent) : List NoteEvent :=
  notes.map fun n =>
    { n with velocity := max 1 (min 127 (Int.tdiv (n.velocity * scaleNum) scaleDen)) }

/-- `MIDIProcessor.clamp_velocity`: `max(min_vel, min(max_vel, velocity))`. -/
def clamp_velocity (notes : List NoteEvent) (min_vel max_vel : Int) : List NoteEvent :=
  notes.map fun n => { n with velocity := max min_vel (min max_vel n.velocity) }

/-- `MIDIProcessor.humanize_velocity`; the i-th `random.randint` draw is `offs i`. -/
def humanize_velocity (offs : Nat → Int) (notes : List NoteEvent) : List NoteEvent :=
  notes.mapIdx fun i n =>
    { n with velocity := max 1 (min 127 (n.velocity + offs i)) }

/-- `SCALE_PATTERNS`, in declaration (= iteration) order. -/
def SCALE_PATTERNS : List (String × List Int) :=
  [("major", [0, 2, 4, 5, 7, 9, 11]),
   ("minor", [0, 2, 3, 5, 7, 8, 10]),
   ("dorian", [0, 2, 3, 5, 7, 9, 10]),
   ("phrygian", [0, 1, 3, 5, 7, 8, 10]),
   ("lydian", [0, 2, 4, 6, 7, 9, 11]),
   ("mixolydian", [0, 2, 4, 5, 7, 9, 10]),
   ("aeolian", [0, 2, 3, 5, 7, 8, 10]),
   ("locrian", [0, 1, 3, 5, 6, 8, 10])]

/-- `NOTE_NAMES`. -/
def NOTE_NAMES : List String :=
  [("C"), ("Db"), ("D"), ("Eb"), ("E"), ("F"), ("Gb"), ("G"), ("Ab"), ("A"), ("Bb"), ("B")]

/-- `root_map.get(key_str, 0)`: index of the lowercased note name, default 0. -/
def rootOf (cs : List Char) : Int :=
  match NOTE_NAMES.findIdx? (fun nm => nm.toList.map Char.toLower == cs) with
  | some i => (i : Int)
  | none => 0

/-- `MIDIProcessor.parse_key`: strip spaces, lowercase, strip the first
matching mode-name suffix in `SCALE_PATTERNS` order (default mode `major`),
then look up the remaining root name. -/
def parse_key (key : String) : Int × String :=
  let cs := (key.toList.filter (fun c => c ≠ Char.ofNat 32)).map Char.toLower
  match SCALE_PATTERNS.find? (fun p => List.isSuffixOf p.1.toList cs) with
  | some p => (rootOf (cs.take (cs.length - p.1.toList.length)), p.1)
  | none => (rootOf cs, ("major"))

/-- Lexicographic order on the `(distance, scale_tone)` pairs that
`force_to_scale` sorts (Python tuple comparison). -/
def pairLe (a b : Int × Int) : Prop :=
  a.1 < b.1 ∨ (a.1 = b.1 ∧ a.2 ≤ b.2)

instance : DecidableRel pairLe := fun a b => by
  unfold pairLe; infer_instance

/-- The pitch-class set of `force_to_scale`: `SCALE_PATTERNS[mode]` (the
`KeyError` that an unknown mode would raise cannot occur, since `mode` always
comes from `parse_key`; it is modelled as the empty set), each degree offset
by the root modulo 12. -/
def scaleNotesOf (root : Int) (mode : String) : List Int :=
  (match SCALE_PATTERNS.find? (fun (p : String × List Int) => p.1 == mode) with
   | some p => p.2
   | none => []).map fun d => (root + d) % 12

/-- The per-note body of `force_to_scale`: out-of-scale pitch classes move to
the nearest scale tone (ties by the sorted `(distance, scale_tone)` pair
order), with the shift wrapped into `[-6, 6]` and the pitch clamped to
`[0, 127]`. -/
def forceNote (scale_notes : List Int) (n : NoteEvent) : NoteEvent :=
  if n.pitch % 12 ∈ scale_notes then n
  else
    let distances := scale_notes.map fun sc => (|n.pitch % 12 - sc|, sc)
    let nearest := ((List.insertionSort pairLe distances).headD (0, 0)).2
    let shift0 := nearest - n.pitch % 12
    let shift :=
      if 6 < shift0 then shift0 - 12
      else if shift0 < -6 then shift0 + 12
      else shift0
    { n with pitch := max 0 (min 127 (n.pitch + shift)) }

/-- `MIDIProcessor.force_to_scale`. -/
def force_to_scale (notes : List NoteEvent) (root : Int) (mode : String) : List NoteEvent :=
  notes.map (forceNote (scaleNotesOf root mode))

/-- Grouping key of `fix_legato`: `(channel, pitch)`. -/
def noteKey (n : NoteEvent) : Int × Int := (n.channel, n.pitch)

/-- The iteration order of `pitch_groups` (a `defaultdict`): keys in order of
first appearance. -/
def firstKeys (notes : List NoteEvent) : List (Int × Int) :=
  notes.foldl (fun acc n => if noteKey n ∈ acc then acc else acc ++ [noteKey n]) []

/-- The adjacent-overlap pass of `fix_legato` over one sorted group: trim
`current.end_tick` to `next.start_tick` on overlap. -/
def fixPass : List NoteEvent → List NoteEvent
  | [] => []
  | [a] => [a]
  | a :: b :: rest =>
      { a with end_tick := if b.start_tick < a.end_tick then b.start_tick else a.end_tick }
        :: fixPass (b :: rest)

/-- `MIDIProcessor.fix_legato`. -/
def fix_legato (notes : List NoteEvent) : List NoteEvent :=
  ((firstKeys notes).map fun k =>
    fixPass (sortByStart (notes.filter fun n => noteKey n = k))).flatten

/-- The `(tick, 'note_on'|'note_off', note)` tuples of `reconstruct_midi`;
the `Bool` is `x[1] == 'note_off'`. -/
def noteEvents (n : NoteEvent) : List (Int × Bool × NoteEvent) :=
  [(n.start_tick, false, n), (n.end_tick, true, n)]

/-- The sort key `(x[0], x[1] == 'note_off')` collapsed to one integer:
lexicographic on `(tick, isOff)`. -/
def evRank (e : Int × Bool × NoteEvent) : Int :=
  2 * e.1 + (if e.2.1 then 1 else 0)

/-- The sort relation of `events.sort(...)`: lexicographic on `(tick, isOff)`,
equivalently comparison of `evRank`. -/
def evLe (a b : Int × Bool × NoteEvent) : Prop := evRank a ≤ evRank b

instance : DecidableRel evLe := fun a b => by unfold evLe; infer_instance

instance : IsTotal (Int × Bool × NoteEvent) evLe := ⟨fun a b => le_total (evRank a) (evRank b)⟩

instance : IsTrans (Int × Bool × NoteEvent) evLe := ⟨fun _ _ _ h1 h2 => le_trans h1 h2⟩

/-- `events.sort(key=lambda x: (x[0], x[1] == 'note_off'))` (stable). -/
def sortEvents (l : List (Int × Bool × NoteEvent)) : List (Int × Bool × NoteEvent) :=
  List.insertionSort evLe l

/-- The per-event emission loop of `reconstruct_midi`: running `current_tick`,
each message's `time` is the delta to the event's absolute tick; note_off is
emitted with velocity 0. -/
def deltaEncode (current : Int) : List (Int × Bool × NoteEvent) → List Msg
  | [] => []
  | (t, isOff, n) :: rest =>
      (if isOff then Msg.noteOff n.pitch 0 n.channel (t - current)
       else Msg.noteOn n.pitch n.velocity n.channel (t - current)) :: deltaEncode t rest

/-- The derived note messages of one reconstructed track. -/
def trackMsgs (notes : List NoteEvent) : List Msg :=
  deltaEncode 0 (sortEvents (notes.flatMap noteEvents))

def Msg.isMeta : Msg → Bool
  | .meta _ => true
  | _ => false

/-- `MIDIProcessor.reconstruct_midi`: for each original track index, copy its
meta messages (keeping their delta times), then append the derived events of
the store's notes for that track. -/
def reconstruct_midi (origTracks : List (List Msg)) (notes : List NoteEvent) :
    List (List Msg) :=
  origTracks.mapIdx fun i tr =>
    tr.filter Msg.isMeta ++ trackMsgs (notes.filter fun n => n.track_idx = i)

/-! ## Generic list lemmas used throughout -/

/-- Partition of a list by a key function over a duplicate-free list of keys
covering all members: concatenating the fibers is a permutation of the list. -/
theorem filter_partition_perm {α κ : Type} [DecidableEq κ] (f : α → κ) :
    ∀ (ks : List κ) (l : List α), ks.Nodup → (∀ x ∈ l, f x ∈ ks) →
      ((ks.map fun k => l.filter fun x => f x = k).flatten).Perm l := by
  intro ks
  induction ks with
  | nil =>
      intro l _ hcov
      cases l with
      | nil => simp
      | cons x xs => exact absurd (hcov x (by simp)) (by simp)
  | cons k ks ih =>
      intro l hnd hcov
      have hk : k ∉ ks := (List.nodup_cons.mp hnd).1
      have hnd2 : ks.Nodup := (List.nodup_cons.mp hnd).2
      have hsplit : ((l.filter fun x => f x = k) ++ (l.filter fun x => ¬(f x = k))).Perm l := by
        simpa using List.filter_append_perm (fun x => decide (f x = k)) l
      have hcov2 : ∀ x ∈ (l.filter fun x => ¬(f x = k)), f x ∈ ks := by
        intro x hx
        have hx2 := List.mem_filter.mp hx
        have := hcov x hx2.1
        simp only [List.mem_cons] at this
        rcases this with h | h
        · exact absurd h (by simpa using hx2.2)
        · exact h
      have ihl := ih (l.filter fun x => ¬(f x = k)) hnd2 hcov2
      have hfib : ∀ k2 ∈ ks,
          ((l.filter fun x => ¬(f x = k)).filter fun x => f x = k2)
            = l.filter fun x => f x = k2 := by
        intro k2 hk2
        have hne : k2 ≠ k := fun h => hk (h ▸ hk2)
        rw [List.filter_filter]
        apply List.filter_congr
        intro x _
        by_cases h : f x = k2
        · simp [h, hne]
        · simp [h]
      have step1 : (((k :: ks)).map fun k2 => l.filter fun x => f x = k2).flatten
          = (l.filter fun x => f x = k)
              ++ ((ks.map fun k2 =>
                    (l.filter fun x => ¬(f x = k)).filter fun x => f x = k2).flatten) := by
        simp only [List.map_cons, List.flatten_cons]
        rw [List.map_congr_left hfib]
      rw [step1]
      exact (List.Perm.append_left _ ihl).trans hsplit

/-- Pointwise `Forall₂` between a list and its `map`. -/
theorem forall₂_map_self {α β : Type} (R : α → β → Prop) (f : α → β)
    (l : List α) (h : ∀ x ∈ l, R x (f x)) : List.Forall₂ R l (l.map f) := by
  induction l with
  | nil => simp
  | cons x xs ih =>
      exact List.Forall₂.cons (h x (by simp)) (ih fun y hy => h y (List.mem_cons_of_mem _ hy))

/-- Pointwise `Forall₂` between a list and its `mapIdx`. -/
theorem forall₂_mapIdx_self {α β : Type} (R : α → β → Prop) :
    ∀ (f : Nat → α → β) (l : List α), (∀ i x, R x (f i x)) →
      List.Forall₂ R l (l.mapIdx f) := by
  intro f l
  induction l generalizing f with
  | nil => simp
  | cons x xs ih =>
      intro h
      rw [List.mapIdx_cons]
      exact List.Forall₂.cons (h 0 x) (ih _ fun i y => h (i + 1) y)

/-! ## C8: velocity clamp evaluation order -/

/-- C8 (confirmed). `clamp_velocity` applies `min(max_vel, velocity)` before
`max(min_vel, ·)` with no validation that `min_vel <= max_vel`: with the
inverted range `min=80, max=40`, every velocity (in particular 100) maps
to 80, not 40. -/
theorem C8_clamp_min_before_max :
    (∀ v : Int, clamp_velocity [⟨60, v, 0, 10, 0, 0⟩] 80 40 = [⟨60, 80, 0, 10, 0, 0⟩])
    ∧ (clamp_velocity [⟨60, 100, 0, 10, 0, 0⟩] 80 40).map NoteEvent.velocity = [80] := by
  constructor
  · intro v
    simp only [clamp_velocity, List.map_cons, List.map_nil]
    have : max 80 (min 40 v) = 80 := by omega
    rw [this]
  · decide

/-! ## C9: force-to-scale tie-break at pitch 61 in C major -/

/-- C9 (confirmed). `parse_key` resolves the key string `Cmajor` to root 0,
mode `major`, and `force_to_scale` then maps a note of pitch 61 (pitch class
C#, equidistant from scale tones C and D) to pitch 60: the tie is broken in
favor of the scale tone listed first in ascending-degree order. -/
theorem C9_force_to_scale_tiebreak :
    parse_key ("Cmajor") = (0, ("major"))
    ∧ (force_to_scale [⟨61, 100, 0, 10, 0, 0⟩]
        (parse_key ("Cmajor")).1 (parse_key ("Cmajor")).2).map NoteEvent.pitch = [60] := by
  constructor
  · decide
  · decide

/-! ## C4: quantization rounding -/

/-- `quantize_tick` returns the floor multiple or its successor. -/
theorem quantize_tick_cases (t g : Int) :
    quantize_tick t g = (t / g) * g ∨ quantize_tick t g = (t / g) * g + g := by
  unfold quantize_tick
  rcases lt_or_le (2 * (t % g)) g with h1 | h1
  · rw [if_pos h1]; exact Or.inl rfl
  · rw [if_neg (not_lt.mpr h1)]
    rcases lt_or_le g (2 * (t % g)) with h2 | h2
    · rw [if_pos h2]; exact Or.inr (by ring)
    · rw [if_neg (not_lt.mpr h2)]
      by_cases h3 : (t / g) % 2 = 0
      · rw [if_pos h3]; exact Or.inl rfl
      · rw [if_neg h3]; exact Or.inr (by ring)

/-- The quantized tick is within `min r (g - r)` of the tick. -/
theorem quantize_tick_dist (t g : Int) (hg : 0 < g) :
    |quantize_tick t g - t| ≤ min (t % g) (g - t % g) := by
  have hX : (t / g) * g + t % g = t := by rw [mul_comm]; exact Int.ediv_add_emod t g
  have hr0 : 0 ≤ t % g := Int.emod_nonneg t (by omega)
  have hrg : t % g < g := Int.emod_lt_of_pos t hg
  unfold quantize_tick
  rcases lt_or_le (2 * (t % g)) g with h1 | h1
  · rw [if_pos h1]
    have he : (t / g) * g - t = -(t % g) := by linarith
    rw [he, abs_neg, abs_of_nonneg hr0]
    exact le_min (le_refl _) (by omega)
  · rw [if_neg (not_lt.mpr h1)]
    have hXg : (t / g + 1) * g = (t / g) * g + g := by ring
    rcases lt_or_le g (2 * (t % g)) with h2 | h2
    · rw [if_pos h2, hXg]
      have he : (t / g) * g + g - t = g - t % g := by linarith
      rw [he, abs_of_nonneg (by omega)]
      exact le_min (by omega) (le_refl _)
    · rw [if_neg (not_lt.mpr h2)]
      have htie : 2 * (t % g) = g := by omega
      by_cases h3 : (t / g) % 2 = 0
      · rw [if_pos h3]
        have he : (t / g) * g - t = -(t % g) := by linarith
        rw [he, abs_neg, abs_of_nonneg hr0]
        exact le_min (le_refl _) (by omega)
      · rw [if_neg h3, hXg]
        have he : (t / g) * g + g - t = g - t % g := by linarith
        rw [he, abs_of_nonneg (by omega)]
        exact le_min (by omega) (le_refl _)

/-- Any grid multiple is at least `min r (g - r)` away from `t`. -/
theorem quantize_nearest_aux (t g : Int) (hg : 0 < g) (m : Int) :
    min (t % g) (g - t % g) ≤ |m * g - t| := by
  have hX : (t / g) * g + t % g = t := by rw [mul_comm]; exact Int.ediv_add_emod t g
  have hr0 : 0 ≤ t % g := Int.emod_nonneg t (by omega)
  have hrg : t % g < g := Int.emod_lt_of_pos t hg
  rcases le_or_lt m (t / g) with hd | hd
  · have hmg : m * g ≤ (t / g) * g := mul_le_mul_of_nonneg_right hd hg.le
    have h2 : min (t % g) (g - t % g) ≤ t % g := min_le_left _ _
    have h3 : t % g ≤ -(m * g - t) := by linarith
    have h4 : -(m * g - t) ≤ |m * g - t| := neg_le_abs _
    linarith
  · have hd1 : t / g + 1 ≤ m := hd
    have hmg : (t / g + 1) * g ≤ m * g := mul_le_mul_of_nonneg_right hd1 hg.le
    have hXg : (t / g + 1) * g = (t / g) * g + g := by ring
    have h2 : min (t % g) (g - t % g) ≤ g - t % g := min_le_right _ _
    have h3 : g - t % g ≤ m * g - t := by linarith [hmg, hXg, hX]
    have h4 : m * g - t ≤ |m * g - t| := le_abs_self _
    linarith

/-- C4 counterexample: the claim asserts round-half-away-from-zero, so that
tick 8 on a 16-tick grid quantizes to 16; the code's Python 3 `round` is
round-half-to-even and maps it to 0. -/
theorem C4_counterexample : quantize_tick 8 16 = 0 ∧ quantize_tick 8 16 ≠ 16 := by
  decide

/-- C4 (amended). For every start tick and positive grid, `quantize_tick`
returns a grid multiple nearest to the tick, with an exact halfway tie
rounded to the even quotient (round-half-to-even, so tick 8 on a 16-tick
grid goes to 0, not 16); it maps non-negative ticks to non-negative results,
and the quantize stage recomputes `end_tick = new_start + original_duration`,
preserving duration and every other field exactly. -/
theorem C4_quantize_amended (t g : Int) (hg : 0 < g) :
    (g ∣ quantize_tick t g)
    ∧ (∀ m : Int, |quantize_tick t g - t| ≤ |m * g - t|)
    ∧ (2 * (t % g) = g → ∃ c, quantize_tick t g = c * g ∧ c % 2 = 0)
    ∧ (0 ≤ t → 0 ≤ quantize_tick t g)
    ∧ (∀ notes, List.Forall₂ (fun (n n2 : NoteEvent) =>
        n2.start_tick = quantize_tick n.start_tick g
        ∧ n2.end_tick - n2.start_tick = n.end_tick - n.start_tick
        ∧ n2.pitch = n.pitch ∧ n2.velocity = n.velocity
        ∧ n2.channel = n.channel ∧ n2.track_idx = n.track_idx)
        notes (quantizeStage g notes)) := by
  refine ⟨?_, ?_, ?_, ?_, ?_⟩
  · rcases quantize_tick_cases t g with h | h <;> rw [h]
    · exact dvd_mul_left g (t / g)
    · exact dvd_add (dvd_mul_left g (t / g)) dvd_rfl
  · intro m
    exact le_trans (quantize_tick_dist t g hg) (quantize_nearest_aux t g hg m)
  · intro htie
    unfold quantize_tick
    rw [if_neg (by omega), if_neg (by omega)]
    by_cases h3 : (t / g) % 2 = 0
    · rw [if_pos h3]; exact ⟨t / g, rfl, h3⟩
    · rw [if_neg h3]
      refine ⟨t / g + 1, by ring, ?_⟩
      have := Int.emod_two_eq (t / g)
      omega
  · intro ht
    have hq : 0 ≤ (t / g) * g := mul_nonneg (Int.ediv_nonneg ht hg.le) hg.le
    rcases quantize_tick_cases t g with h | h <;> rw [h] <;> linarith
  · intro notes
    apply forall₂_map_self
    intro n _
    exact ⟨rfl, by ring, rfl, rfl, rfl, rfl⟩

/-- Witness for C4: concrete instantiation at tick 40, grid 16. -/
theorem C4_quantize_amended_witness :
    (16 ∣ quantize_tick 40 16)
    ∧ (|quantize_tick 40 16 - 40| ≤ |3 * 16 - 40|)
    ∧ (0 ≤ quantize_tick 40 16)
    ∧ List.Forall₂ (fun (n n2 : NoteEvent) =>
        n2.start_tick = quantize_tick n.start_tick 16
        ∧ n2.end_tick - n2.start_tick = n.end_tick - n.start_tick
        ∧ n2.pitch = n.pitch ∧ n2.velocity = n.velocity
        ∧ n2.channel = n.channel ∧ n2.track_idx = n.track_idx)
        [⟨60, 100, 40, 50, 0, 0⟩] (quantizeStage 16 [⟨60, 100, 40, 50, 0, 0⟩]) := by
  have h := C4_quantize_amended 40 16 (by decide)
  exact ⟨h.1, h.2.1 3, h.2.2.2.1 (by decide), h.2.2.2.2 [⟨60, 100, 40, 50, 0, 0⟩]⟩

/-! ## C5: duration preservation and non-negative starts in timing stages -/

/-- Fields preserved by every timing stage: duration and all non-timing
fields. -/
def keepRel (n n2 : NoteEvent) : Prop :=
  n2.end_tick - n2.start_tick = n.end_tick - n.start_tick
  ∧ n2.pitch = n.pitch ∧ n2.velocity = n.velocity
  ∧ n2.channel = n.channel ∧ n2.track_idx = n.track_idx

theorem keepRel_refl (n : NoteEvent) : keepRel n n := ⟨rfl, rfl, rfl, rfl, rfl⟩

theorem quantize_tick_nonneg (t g : Int) (hg : 0 < g) (ht : 0 ≤ t) :
    0 ≤ quantize_tick t g := by
  have hq : 0 ≤ (t / g) * g := mul_nonneg (Int.ediv_nonneg ht hg.le) hg.le
  rcases quantize_tick_cases t g with h | h <;> rw [h] <;> linarith

/-- The clusters built by `clustersGo` concatenate back to the input
sequence. -/
theorem clustersGo_flatten (window : Int) :
    ∀ (rest : List NoteEvent) (pre : List NoteEvent) (last : NoteEvent),
      (clustersGo window pre last rest).flatten = pre ++ last :: rest := by
  intro rest
  induction rest with
  | nil => intro pre last; simp [clustersGo]
  | cons n rest ih =>
      intro pre last
      unfold clustersGo
      split
      · rw [ih]; simp
      · simp only [List.flatten_cons, ih]
        simp

/-- The clusters of `straighten_chords` partition the sorted note list. -/
theorem clustersOf_flatten (window : Int) (notes : List NoteEvent) :
    (clustersOf window notes).flatten = sortByStart notes := by
  unfold clustersOf
  split
  · simp_all
  · rename_i n rest h
    rw [clustersGo_flatten, h]
    simp

theorem alignCluster_forall₂ (c : List NoteEvent) :
    List.Forall₂ keepRel c (alignCluster c) := by
  unfold alignCluster
  split
  · exact forall₂_map_self _ _ _ fun n _ => ⟨by ring, rfl, rfl, rfl, rfl⟩
  · exact List.forall₂_same.mpr fun n _ => keepRel_refl n

theorem alignCluster_nonneg (c : List NoteEvent) (h : ∀ n ∈ c, 0 ≤ n.start_tick) :
    ∀ n2 ∈ alignCluster c, 0 ≤ n2.start_tick := by
  unfold alignCluster
  split
  · rename_i hlen
    intro n2 hn2
    rcases List.mem_map.mp hn2 with ⟨n, _, rfl⟩
    have hsum : 0 ≤ ((c.map (·.start_tick)).sum : Int) := by
      apply List.sum_nonneg
      intro x hx
      rcases List.mem_map.mp hx with ⟨n3, hn3, rfl⟩
      exact h n3 hn3
    have hlen2 : (0 : Int) ≤ (c.length : Int) := by positivity
    exact Int.fdiv_nonneg hsum hlen2
  · exact h

theorem forall₂_flatten_map {α β : Type} (R : α → β → Prop) (f : List α → List β) :
    ∀ (cs : List (List α)), (∀ c ∈ cs, List.Forall₂ R c (f c)) →
      List.Forall₂ R cs.flatten ((cs.map f).flatten) := by
  intro cs
  induction cs with
  | nil => simp
  | cons c cs ih =>
      intro h
      simp only [List.flatten_cons, List.map_cons]
      exact List.rel_append (h c (by simp)) (ih fun c2 hc2 => h c2 (by simp [hc2]))

theorem straighten_forall₂ (notes : List NoteEvent) (window : Int) :
    List.Forall₂ keepRel (sortByStart notes) (straighten_chords notes window) := by
  rw [← clustersOf_flatten window notes]
  exact forall₂_flatten_map _ _ _ fun c _ => alignCluster_forall₂ c

theorem straighten_nonneg (notes : List NoteEvent) (window : Int)
    (h : ∀ n ∈ notes, 0 ≤ n.start_tick) :
    ∀ n2 ∈ straighten_chords notes window, 0 ≤ n2.start_tick := by
  intro n2 hn2
  unfold straighten_chords at hn2
  rcases List.mem_flatten.mp hn2 with ⟨l, hl, hn2l⟩
  rcases List.mem_map.mp hl with ⟨c, hc, rfl⟩
  refine alignCluster_nonneg c ?_ n2 hn2l
  intro n hn
  have hmem : n ∈ (clustersOf window notes).flatten := List.mem_flatten.mpr ⟨c, hc, hn⟩
  rw [clustersOf_flatten] at hmem
  exact h n ((List.perm_insertionSort startLe notes).mem_iff.mp hmem)

/-- C5 counterexample: `--swing` accepts any float; with `swing_amount = -1`
an off-beat note at tick 110 (ticks_per_beat 480, grid 120) is shifted to
start tick -10, which is negative. -/
theorem C5_counterexample :
    apply_swing 480 (-1) 1 [⟨60, 100, 110, 120, 0, 0⟩] = [⟨60, 100, -10, 0, 0, 0⟩]
    ∧ ∀ n ∈ apply_swing 480 (-1) 1 [⟨60, 100, 110, 120, 0, 0⟩], n.start_tick < 0 := by
  decide

/-- C5 (amended). Every timing stage (straighten, quantize, swing, humanize)
preserves `end_tick - start_tick` and every non-timing field of every note;
straighten, quantize and humanize-timing never produce a negative
`start_tick` from non-negative ones, and swing does not either **provided
the swing amount is non-negative** — a negative user-supplied swing amount
(accepted by the CLI) can make `start_tick` negative. -/
theorem C5_timing_amended :
    (∀ notes window, (sortByStart notes).Perm notes
      ∧ List.Forall₂ keepRel (sortByStart notes) (straighten_chords notes window)
      ∧ ((∀ n ∈ notes, 0 ≤ n.start_tick) →
          ∀ n2 ∈ straighten_chords notes window, 0 ≤ n2.start_tick))
    ∧ (∀ g notes, 0 < g → List.Forall₂ (fun n n2 =>
        keepRel n n2 ∧ (0 ≤ n.start_tick → 0 ≤ n2.start_tick))
        notes (quantizeStage g notes))
    ∧ (∀ tpb num den notes, 0 ≤ tpb → 0 ≤ num → 0 ≤ den →
        List.Forall₂ (fun n n2 =>
          keepRel n n2 ∧ (0 ≤ n.start_tick → 0 ≤ n2.start_tick))
          notes (apply_swing tpb num den notes))
    ∧ (∀ offs notes, List.Forall₂ (fun n n2 => keepRel n n2 ∧ 0 ≤ n2.start_tick)
        notes (humanize_timing offs notes)) := by
  refine ⟨?_, ?_, ?_, ?_⟩
  · intro notes window
    exact ⟨List.perm_insertionSort startLe notes, straighten_forall₂ notes window,
      straighten_nonneg notes window⟩
  · intro g notes hg
    apply forall₂_map_self
    intro n _
    exact ⟨⟨by ring, rfl, rfl, rfl, rfl⟩,
      fun h => quantize_tick_nonneg n.start_tick g hg h⟩
  · intro tpb num den notes htpb hnum hden
    apply forall₂_map_self
    intro n _
    dsimp only [apply_swing]
    split
    · refine ⟨⟨by ring, rfl, rfl, rfl, rfl⟩, fun h => ?_⟩
      have hgrid : 0 ≤ get_quantize_ticks tpb 1 16 := by
        unfold get_quantize_ticks
        exact Int.tdiv_nonneg (by positivity) (by norm_num)
      have hoff : 0 ≤ Int.tdiv (get_quantize_ticks tpb 1 16 * num) den :=
        Int.tdiv_nonneg (mul_nonneg hgrid hnum) hden
      simpa using add_nonneg h hoff
    · exact ⟨keepRel_refl n, fun h => h⟩
  · intro offs notes
    apply forall₂_mapIdx_self
    intro i n
    exact ⟨⟨by ring, rfl, rfl, rfl, rfl⟩, le_max_left 0 _⟩

/-- Witness for C5 at concrete inputs. -/
theorem C5_timing_amended_witness :
    (∀ n2 ∈ straighten_chords [⟨60, 100, 100, 200, 0, 0⟩, ⟨64, 100, 112, 220, 0, 0⟩] 20,
        0 ≤ n2.start_tick)
    ∧ List.Forall₂ keepRel [⟨60, 100, 110, 120, 0, 0⟩]
        (apply_swing 480 1 2 [⟨60, 100, 110, 120, 0, 0⟩])
    ∧ List.Forall₂ (fun n n2 => keepRel n n2 ∧ 0 ≤ n2.start_tick)
        [⟨60, 100, 5, 25, 0, 0⟩] (humanize_timing (fun _ => -10) [⟨60, 100, 5, 25, 0, 0⟩])
    ∧ List.Forall₂ (fun n n2 => keepRel n n2 ∧ (0 ≤ n.start_tick → 0 ≤ n2.start_tick))
        [⟨60, 100, 40, 50, 0, 0⟩] (quantizeStage 16 [⟨60, 100, 40, 50, 0, 0⟩]) := by
  have h := C5_timing_amended
  refine ⟨(h.1 _ 20).2.2 (by decide), ?_, h.2.2.2 (fun _ => -10) _, h.2.1 16 _ (by decide)⟩
  exact List.Forall₂.imp (fun a b hab => hab.1)
    (h.2.2.1 480 1 2 _ (by decide) (by decide) (by decide))

/-! ## C3: legal-range invariants for velocity and pitch -/

theorem mem_of_mapIdx {α β : Type} :
    ∀ (f : Nat → α → β) (l : List α), ∀ y ∈ l.mapIdx f, ∃ i x, x ∈ l ∧ y = f i x := by
  intro f l
  induction l generalizing f with
  | nil => simp
  | cons a l ih =>
      intro y hy
      rw [List.mapIdx_cons] at hy
      rcases List.mem_cons.mp hy with hy | hy
      · exact ⟨0, a, by simp, hy⟩
      · rcases ih _ y hy with ⟨i, x, hx, hyx⟩
        exact ⟨i + 1, x, by simp [hx], hyx⟩

/-- C3 counterexample: Event Pairing itself can store velocity 0 (a note
closed by a velocity-0 note_on), and `clamp_velocity` with user bounds
`min=200, max=300` leaves velocity 200, outside `[1, 127]`. -/
theorem C3_counterexample :
    (parse_notes [[Msg.noteOn 60 100 0 0, Msg.noteOn 60 0 0 10]]).map NoteEvent.velocity = [0]
    ∧ (clamp_velocity [⟨60, 64, 0, 10, 0, 0⟩] 200 300).map NoteEvent.velocity = [200] := by
  constructor
  · rfl
  · decide

/-- C3 (amended). `scale_velocity` and `humanize_velocity` clamp every
velocity into `[1, 127]`; `clamp_velocity` only bounds velocity into the
user-supplied range (min applied after max), so the `[1, 127]` invariant
survives it exactly when the user bounds lie within `[1, 127]`; pitch is
kept in `[0, 127]` by `force_to_scale` (the only stage that changes pitch)
for in-range inputs. Event Pairing itself violates the velocity invariant:
it stores velocity 0 on notes closed by a velocity-0 note_on. -/
theorem C3_ranges_amended :
    (∀ num den notes, ∀ n2 ∈ scale_velocity num den notes,
        1 ≤ n2.velocity ∧ n2.velocity ≤ 127)
    ∧ (∀ offs notes, ∀ n2 ∈ humanize_velocity offs notes,
        1 ≤ n2.velocity ∧ n2.velocity ≤ 127)
    ∧ (∀ mn mx notes, ∀ n2 ∈ clamp_velocity notes mn mx,
        mn ≤ n2.velocity ∧ n2.velocity ≤ max mn mx)
    ∧ (∀ mn mx notes, 1 ≤ mn → mn ≤ 127 → mx ≤ 127 →
        ∀ n2 ∈ clamp_velocity notes mn mx, 1 ≤ n2.velocity ∧ n2.velocity ≤ 127)
    ∧ (∀ notes root mode, (∀ n ∈ notes, 0 ≤ n.pitch ∧ n.pitch ≤ 127) →
        ∀ n2 ∈ force_to_scale notes root mode, 0 ≤ n2.pitch ∧ n2.pitch ≤ 127) := by
  refine ⟨?_, ?_, ?_, ?_, ?_⟩
  · intro num den notes n2 hn2
    rcases List.mem_map.mp hn2 with ⟨n, _, rfl⟩
    dsimp only
    omega
  · intro offs notes n2 hn2
    rcases mem_of_mapIdx _ notes n2 hn2 with ⟨i, n, _, rfl⟩
    dsimp only
    omega
  · intro mn mx notes n2 hn2
    rcases List.mem_map.mp hn2 with ⟨n, _, rfl⟩
    dsimp only
    omega
  · intro mn mx notes h1 h2 h3 n2 hn2
    rcases List.mem_map.mp hn2 with ⟨n, _, rfl⟩
    dsimp only
    omega
  · intro notes root mode hall n2 hn2
    rcases List.mem_map.mp hn2 with ⟨n, hn, rfl⟩
    unfold forceNote
    split
    · exact hall n hn
    · dsimp only
      omega

/-- Witness for C3 at concrete inputs. -/
theorem C3_ranges_amended_witness :
    (∀ n2 ∈ clamp_velocity [⟨60, 200, 0, 10, 0, 0⟩] 10 120,
        1 ≤ n2.velocity ∧ n2.velocity ≤ 127)
    ∧ (∀ n2 ∈ force_to_scale [⟨61, 100, 0, 10, 0, 0⟩] 0 ("major"),
        0 ≤ n2.pitch ∧ n2.pitch ≤ 127)
    ∧ (∀ n2 ∈ scale_velocity 3 2 [⟨60, 100, 0, 10, 0, 0⟩],
        1 ≤ n2.velocity ∧ n2.velocity ≤ 127) := by
  have h := C3_ranges_amended
  exact ⟨h.2.2.2.1 10 120 _ (by decide) (by decide) (by decide),
    h.2.2.2.2 _ 0 ("major") (by decide), h.1 3 2 _⟩

/-! ## C7: legato fix -/

/-- What `fix_legato` may do to a note: every field preserved except
`end_tick`, which may only shrink (truncation, never extension). -/
def truncRel (n n2 : NoteEvent) : Prop :=
  n2.pitch = n.pitch ∧ n2.velocity = n.velocity ∧ n2.start_tick = n.start_tick
  ∧ n2.channel = n.channel ∧ n2.track_idx = n.track_idx ∧ n2.end_tick ≤ n.end_tick

/-- The sorted per-key groups that `fix_legato` processes, concatenated. -/
def sortedGroups (notes : List NoteEvent) : List NoteEvent :=
  ((firstKeys notes).map fun k => sortByStart (notes.filter fun n => noteKey n = k)).flatten

theorem firstKeys_step_mono (acc : List (Int × Int)) (n : NoteEvent) (x : Int × Int)
    (hx : x ∈ acc) : x ∈ (if noteKey n ∈ acc then acc else acc ++ [noteKey n]) := by
  split <;> simp [hx]

theorem firstKeysAux_mono :
    ∀ (l : List NoteEvent) (acc : List (Int × Int)) (x : Int × Int), x ∈ acc →
      x ∈ l.foldl (fun acc n => if noteKey n ∈ acc then acc else acc ++ [noteKey n]) acc := by
  intro l
  induction l with
  | nil => intro acc x hx; simpa using hx
  | cons n l ih =>
      intro acc x hx
      rw [List.foldl_cons]
      exact ih _ x (firstKeys_step_mono acc n x hx)

theorem firstKeysAux_covers :
    ∀ (l : List NoteEvent) (acc : List (Int × Int)), ∀ n ∈ l,
      noteKey n ∈ l.foldl (fun acc n => if noteKey n ∈ acc then acc else acc ++ [noteKey n]) acc := by
  intro l
  induction l with
  | nil => simp
  | cons m l ih =>
      intro acc n hn
      rw [List.foldl_cons]
      rcases List.mem_cons.mp hn with rfl | hn
      · apply firstKeysAux_mono
        split
        · assumption
        · simp
      · exact ih _ n hn

theorem firstKeys_covers (notes : List NoteEvent) :
    ∀ n ∈ notes, noteKey n ∈ firstKeys notes :=
  fun n hn => firstKeysAux_covers notes [] n hn

theorem firstKeys_nodup (notes : List NoteEvent) : (firstKeys notes).Nodup := by
  unfold firstKeys
  have haux : ∀ (l : List NoteEvent) (acc : List (Int × Int)), acc.Nodup →
      (l.foldl (fun acc n => if noteKey n ∈ acc then acc else acc ++ [noteKey n]) acc).Nodup := by
    intro l
    induction l with
    | nil => intro acc h; simpa using h
    | cons n l ih =>
        intro acc h
        rw [List.foldl_cons]
        apply ih
        split
        · exact h
        · rename_i hmem
          simp [List.nodup_append, h, hmem]
  exact haux notes [] (by simp)

theorem fixPass_forall₂ : ∀ l : List NoteEvent, List.Forall₂ truncRel l (fixPass l) := by
  intro l
  induction l with
  | nil => simp [fixPass]
  | cons a l ih =>
      cases l with
      | nil =>
          refine List.Forall₂.cons ?_ (by simp)
          exact ⟨rfl, rfl, rfl, rfl, rfl, le_refl _⟩
      | cons b rest =>
          refine List.Forall₂.cons ?_ ih
          refine ⟨rfl, rfl, rfl, rfl, rfl, ?_⟩
          dsimp only
          split
          · rename_i hlt; exact le_of_lt hlt
          · exact le_refl _

/-- `fixPass` of a non-empty list starts with its first note, end possibly
truncated. -/
theorem fixPass_cons_shape (b : NoteEvent) (rest : List NoteEvent) :
    ∃ e tl, fixPass (b :: rest) = { b with end_tick := e } :: tl := by
  cases rest with
  | nil => exact ⟨b.end_tick, [], rfl⟩
  | cons c r => exact ⟨_, _, rfl⟩

theorem fixPass_chain :
    ∀ l : List NoteEvent,
      List.Chain' (fun x y => x.end_tick ≤ y.start_tick) (fixPass l) := by
  intro l
  induction l with
  | nil => simp [fixPass]
  | cons a l ih =>
      cases l with
      | nil => simp [fixPass]
      | cons b rest =>
          show List.Chain' _ (_ :: fixPass (b :: rest))
          rcases fixPass_cons_shape b rest with ⟨e, tl, heq⟩
          rw [heq]
          rw [heq] at ih
          refine List.Chain'.cons ?_ ih
          dsimp only
          split
          · rename_i hlt; exact le_refl _
          · rename_i hnlt; exact le_of_not_lt hnlt

theorem forall₂_map_start {l l2 : List NoteEvent}
    (h : List.Forall₂ truncRel l l2) :
    l.map NoteEvent.start_tick = l2.map NoteEvent.start_tick := by
  induction h with
  | nil => rfl
  | cons hr _ ih => simp [ih, hr.2.2.1]

theorem sorted_fixPass (l : List NoteEvent) (h : l.Sorted startLe) :
    (fixPass l).Sorted startLe := by
  have hst : l.map NoteEvent.start_tick = (fixPass l).map NoteEvent.start_tick :=
    forall₂_map_start (fixPass_forall₂ l)
  have h1 : List.Pairwise (fun x y : Int => x ≤ y) (l.map NoteEvent.start_tick) :=
    List.pairwise_map.mpr h
  rw [hst] at h1
  have h2 : List.Pairwise (fun a b : NoteEvent => a.start_tick ≤ b.start_tick) (fixPass l) :=
    List.pairwise_map.mp h1
  exact h2

theorem forall₂_mem_right {α β : Type} {R : α → β → Prop} :
    ∀ {l : List α} {l2 : List β}, List.Forall₂ R l l2 → ∀ y ∈ l2, ∃ x ∈ l, R x y := by
  intro l l2 h
  induction h with
  | nil => simp
  | cons hr _ ih =>
      intro y hy
      rcases List.mem_cons.mp hy with rfl | hy
      · exact ⟨_, by simp, hr⟩
      · rcases ih y hy with ⟨x, hx, hxy⟩
        exact ⟨x, by simp [hx], hxy⟩

theorem filter_flatten {α : Type} (p : α → Bool) :
    ∀ L : List (List α), (L.flatten.filter p) = (L.map (List.filter p)).flatten := by
  intro L
  induction L with
  | nil => rfl
  | cons l L ih => simp [List.filter_append, ih]

theorem flatten_perm_pointwise {α : Type} :
    ∀ {L1 L2 : List (List α)}, List.Forall₂ List.Perm L1 L2 → L1.flatten.Perm L2.flatten := by
  intro L1 L2 h
  induction h with
  | nil => rfl
  | cons hr _ ih => simpa using List.Perm.append hr ih

/-- Every note in a `fix_legato` group keeps the group's key. -/
theorem fixPass_group_key (notes : List NoteEvent) (k : Int × Int) :
    ∀ n2 ∈ fixPass (sortByStart (notes.filter fun n => noteKey n = k)),
      noteKey n2 = k := by
  intro n2 hn2
  rcases forall₂_mem_right (fixPass_forall₂ _) n2 hn2 with ⟨n, hn, hrel⟩
  have hn3 : n ∈ notes.filter fun n => noteKey n = k :=
    (List.perm_insertionSort startLe _).mem_iff.mp hn
  have hk : noteKey n = k := by
    have := (List.mem_filter.mp hn3).2
    simpa using this
  have : noteKey n2 = noteKey n := by
    unfold noteKey
    rw [hrel.2.2.2.1, hrel.1]
  rw [this, hk]

/-- Filtering the output of `fix_legato` by a key recovers that key's fixed
group (or nothing, when the key has no notes). -/
theorem fix_legato_filter_key (notes : List NoteEvent) (kp : Int × Int) :
    ((fix_legato notes).filter fun n => noteKey n = kp)
      = if kp ∈ firstKeys notes
        then fixPass (sortByStart (notes.filter fun n => noteKey n = kp))
        else [] := by
  have main : ∀ ks : List (Int × Int), ks.Nodup →
      (((ks.map fun k =>
          fixPass (sortByStart (notes.filter fun n => noteKey n = k))).flatten).filter
        fun n => noteKey n = kp)
      = if kp ∈ ks
        then fixPass (sortByStart (notes.filter fun n => noteKey n = kp))
        else [] := by
    intro ks
    induction ks with
    | nil => intro _; simp
    | cons k ks ih =>
        intro hnd
        have hk : k ∉ ks := (List.nodup_cons.mp hnd).1
        have hnd2 : ks.Nodup := (List.nodup_cons.mp hnd).2
        simp only [List.map_cons, List.flatten_cons, List.filter_append]
        by_cases hkp : k = kp
        · subst hkp
          have hself : ((fixPass (sortByStart (notes.filter fun n => noteKey n = k))).filter
              fun n => noteKey n = k)
              = fixPass (sortByStart (notes.filter fun n => noteKey n = k)) := by
            apply List.filter_eq_self.mpr
            intro n2 hn2
            simpa using fixPass_group_key notes k n2 hn2
          rw [hself, ih hnd2, if_neg hk]
          simp
        · have hz : ((fixPass (sortByStart (notes.filter fun n => noteKey n = k))).filter
              fun n => noteKey n = kp) = [] := by
            apply List.filter_eq_nil_iff.mpr
            intro n2 hn2
            have := fixPass_group_key notes k n2 hn2
            simp [this, hkp]
          rw [hz, ih hnd2]
          have hne2 : ¬kp = k := fun h => hkp h.symm
          simp [List.mem_cons, hne2]
  unfold fix_legato
  exact main (firstKeys notes) (firstKeys_nodup notes)

/-- C7 (confirmed). `fix_legato` permutes the store into its sorted per-key
groups and then only truncates `end_tick` (never extends, splits, merges or
removes a note); afterwards, every `(channel, pitch)` group listed in
ascending `start_tick` order satisfies `end_tick[i] <= start_tick[i+1]` for
each adjacent pair. -/
theorem C7_fix_legato (notes : List NoteEvent) :
    ((sortedGroups notes).Perm notes)
    ∧ List.Forall₂ truncRel (sortedGroups notes) (fix_legato notes)
    ∧ ∀ ch p : Int,
        ((fix_legato notes).filter fun n => noteKey n = (ch, p)).Sorted startLe
        ∧ List.Chain' (fun x y => x.end_tick ≤ y.start_tick)
            ((fix_legato notes).filter fun n => noteKey n = (ch, p)) := by
  refine ⟨?_, ?_, ?_⟩
  · unfold sortedGroups
    have h1 : List.Forall₂ List.Perm
        ((firstKeys notes).map fun k => sortByStart (notes.filter fun n => noteKey n = k))
        ((firstKeys notes).map fun k => notes.filter fun n => noteKey n = k) := by
      rw [List.forall₂_map_left_iff, List.forall₂_map_right_iff]
      refine List.forall₂_same.mpr fun k _ => ?_
      exact List.perm_insertionSort startLe _
    exact (flatten_perm_pointwise h1).trans
      (filter_partition_perm noteKey (firstKeys notes) notes
        (firstKeys_nodup notes) (firstKeys_covers notes))
  · unfold sortedGroups fix_legato
    have := forall₂_flatten_map truncRel fixPass
      ((firstKeys notes).map fun k => sortByStart (notes.filter fun n => noteKey n = k))
      (fun c _ => fixPass_forall₂ c)
    rwa [List.map_map] at this
  · intro ch p
    rw [fix_legato_filter_key notes (ch, p)]
    split
    · exact ⟨sorted_fixPass _ (List.sorted_insertionSort startLe _), fixPass_chain _⟩
    · exact ⟨by simp, by simp⟩

/-! ## C10: the velocity recorded at pairing comes from the closing event -/

/-- A `note_on` with velocity 0 (the implicit note-off form). -/
def Msg.isZeroOn : Msg → Bool
  | .noteOn _ v _ _ => v = 0
  | _ => false

/-- An explicit `note_off` message. -/
def Msg.isOff : Msg → Bool
  | .noteOff _ _ _ _ => true
  | _ => false

/-- Rewrite the velocity of every opening (positive-velocity) `note_on`
through `f`, leaving closings and everything else untouched. -/
def mapMsgVel (f : Int → Int) (m : Msg) : Msg :=
  match m with
  | .noteOn p v ch t => if 0 < v then .noteOn p (f v) ch t else m
  | _ => m

def mapOnVel (f : Int → Int) (tracks : List (List Msg)) : List (List Msg) :=
  tracks.map (List.map (mapMsgVel f))

theorem parse_vel_mem_aux (i : Nat) :
    ∀ (msgs : List Msg) (s : PState),
      (∀ n ∈ s.notes, n.velocity = 0 ∨ n.velocity = 64) →
      ∀ n ∈ (msgs.foldl (parseStep i) s).notes, n.velocity = 0 ∨ n.velocity = 64 := by
  intro msgs
  induction msgs with
  | nil => intro s h; simpa using h
  | cons m msgs ih =>
      intro s h
      rw [List.foldl_cons]
      apply ih
      intro n hn
      cases m with
      | noteOn note vel ch t =>
          dsimp only [parseStep] at hn
          split at hn
          · exact h n hn
          · split at hn
            · rename_i hzero
              unfold closeNote at hn
              split at hn
              · dsimp only at hn
                rcases List.mem_append.mp hn with hn | hn
                · exact h n hn
                · rw [List.mem_singleton] at hn
                  subst hn
                  exact Or.inl hzero
              · exact h n hn
            · exact h n hn
      | noteOff note vel ch t =>
          dsimp only [parseStep] at hn
          unfold closeNote at hn
          split at hn
          · dsimp only at hn
            rcases List.mem_append.mp hn with hn | hn
            · exact h n hn
            · rw [List.mem_singleton] at hn
              subst hn
              exact Or.inr rfl
          · exact h n hn
      | meta t => exact h n hn

theorem parse_vel_mem (tracks : List (List Msg)) :
    ∀ (i : Nat) (a : Active), ∀ n ∈ parseTracksAux i a tracks,
      n.velocity = 0 ∨ n.velocity = 64 := by
  induction tracks with
  | nil => simp [parseTracksAux]
  | cons tr rest ih =>
      intro i a n hn
      unfold parseTracksAux at hn
      rcases List.mem_append.mp hn with hn | hn
      · exact parse_vel_mem_aux i tr ⟨0, a, []⟩ (by simp) n hn
      · exact ih _ _ n hn

theorem parseStep_mapMsgVel (i : Nat) (f : Int → Int) (hf : ∀ v, 0 < v → 0 < f v)
    (s : PState) (m : Msg) : parseStep i s (mapMsgVel f m) = parseStep i s m := by
  cases m with
  | noteOn note vel ch t =>
      show parseStep i s (if 0 < vel then Msg.noteOn note (f vel) ch t
        else Msg.noteOn note vel ch t) = _
      by_cases hv : 0 < vel
      · rw [if_pos hv]
        dsimp only [parseStep]
        rw [if_pos hv, if_pos (hf vel hv)]
      · rw [if_neg hv]
  | noteOff note vel ch t => rfl
  | meta t => rfl

theorem parse_mapOnVel_track (i : Nat) (f : Int → Int) (hf : ∀ v, 0 < v → 0 < f v) :
    ∀ (msgs : List Msg) (s : PState),
      (msgs.map (mapMsgVel f)).foldl (parseStep i) s = msgs.foldl (parseStep i) s := by
  intro msgs
  induction msgs with
  | nil => intro s; rfl
  | cons m msgs ih =>
      intro s
      rw [List.map_cons, List.foldl_cons, List.foldl_cons, parseStep_mapMsgVel i f hf]
      exact ih _

theorem parse_mapOnVel (f : Int → Int) (hf : ∀ v, 0 < v → 0 < f v) :
    ∀ (tracks : List (List Msg)) (i : Nat) (a : Active),
      parseTracksAux i a (tracks.map (List.map (mapMsgVel f)))
        = parseTracksAux i a tracks := by
  intro tracks
  induction tracks with
  | nil => intro i a; rfl
  | cons tr rest ih =>
      intro i a
      unfold parseTracksAux
      rw [List.map_cons]
      show (parseTrack i a (tr.map (mapMsgVel f))).notes ++ _ = _
      unfold parseTrack
      rw [parse_mapOnVel_track i f hf]
      rw [ih]

theorem parse_vel_no_zero_on_aux (i : Nat) :
    ∀ (msgs : List Msg) (s : PState),
      (∀ m ∈ msgs, m.isZeroOn = false) →
      (∀ n ∈ s.notes, n.velocity = 64) →
      ∀ n ∈ (msgs.foldl (parseStep i) s).notes, n.velocity = 64 := by
  intro msgs
  induction msgs with
  | nil => intro s _ h; simpa using h
  | cons m msgs ih =>
      intro s hm h
      rw [List.foldl_cons]
      apply ih _ (fun m2 hm2 => hm m2 (List.mem_cons_of_mem _ hm2))
      intro n hn
      cases m with
      | noteOn note vel ch t =>
          dsimp only [parseStep] at hn
          split at hn
          · exact h n hn
          · split at hn
            · rename_i hzero
              have := hm _ (List.mem_cons_self _ _)
              rw [Msg.isZeroOn] at this
              simp [hzero] at this
            · exact h n hn
      | noteOff note vel ch t =>
          dsimp only [parseStep] at hn
          unfold closeNote at hn
          split at hn
          · dsimp only at hn
            rcases List.mem_append.mp hn with hn | hn
            · exact h n hn
            · rw [List.mem_singleton] at hn
              subst hn
              rfl
          · exact h n hn
      | meta t => exact h n hn

theorem parse_vel_no_off_aux (i : Nat) :
    ∀ (msgs : List Msg) (s : PState),
      (∀ m ∈ msgs, m.isOff = false) →
      (∀ n ∈ s.notes, n.velocity = 0) →
      ∀ n ∈ (msgs.foldl (parseStep i) s).notes, n.velocity = 0 := by
  intro msgs
  induction msgs with
  | nil => intro s _ h; simpa using h
  | cons m msgs ih =>
      intro s hm h
      rw [List.foldl_cons]
      apply ih _ (fun m2 hm2 => hm m2 (List.mem_cons_of_mem _ hm2))
      intro n hn
      cases m with
      | noteOn note vel ch t =>
          dsimp only [parseStep] at hn
          split at hn
          · exact h n hn
          · split at hn
            · rename_i hzero
              unfold closeNote at hn
              split at hn
              · dsimp only at hn
                rcases List.mem_append.mp hn with hn | hn
                · exact h n hn
                · rw [List.mem_singleton] at hn
                  subst hn
                  exact hzero
              · exact h n hn
            · exact h n hn
      | noteOff note vel ch t =>
          have := hm _ (List.mem_cons_self _ _)
          rw [Msg.isOff] at this
          simp at this
      | meta t => exact h n hn

/-! ## C1: velocity-0 note_on versus explicit note_off -/

/-- A NoteEvent with its velocity field erased. -/
def stripVel (n : NoteEvent) : Int × Int × Int × Int × Nat :=
  (n.pitch, n.start_tick, n.end_tick, n.channel, n.track_idx)

/-- Two messages that the claim treats as interchangeable: equal, or a
velocity-0 `note_on` against a `note_off` for the same key at the same
delta time. -/
def msgEquiv (m1 m2 : Msg) : Prop :=
  m1 = m2 ∨ ∃ p ch t v, m1 = Msg.noteOn p 0 ch t ∧ m2 = Msg.noteOff p v ch t

theorem closeNote_rel (i : Nat) (note ch v1 v2 tick : Int) (s1 s2 : PState)
    (ha : s1.active = s2.active) (hn : s1.notes.map stripVel = s2.notes.map stripVel) :
    (closeNote i note ch v1 tick s1).tick = (closeNote i note ch v2 tick s2).tick
    ∧ (closeNote i note ch v1 tick s1).active = (closeNote i note ch v2 tick s2).active
    ∧ (closeNote i note ch v1 tick s1).notes.map stripVel
        = (closeNote i note ch v2 tick s2).notes.map stripVel := by
  unfold closeNote
  rw [ha]
  rcases hcase : s2.active (i, ch, note) with _ | st
  · exact ⟨rfl, rfl, hn⟩
  · refine ⟨rfl, rfl, ?_⟩
    dsimp only
    rw [List.map_append, List.map_append, hn]
    rfl

theorem parseStep_msgEquiv (i : Nat) (s1 s2 : PState) (m1 m2 : Msg)
    (hm : msgEquiv m1 m2) (ht : s1.tick = s2.tick) (ha : s1.active = s2.active)
    (hn : s1.notes.map stripVel = s2.notes.map stripVel) :
    (parseStep i s1 m1).tick = (parseStep i s2 m2).tick
    ∧ (parseStep i s1 m1).active = (parseStep i s2 m2).active
    ∧ (parseStep i s1 m1).notes.map stripVel = (parseStep i s2 m2).notes.map stripVel := by
  rcases hm with rfl | ⟨p, ch, t, v, rfl, rfl⟩
  · cases m1 with
    | noteOn note vel ch t =>
        dsimp only [parseStep]
        rw [ht, ha]
        split
        · exact ⟨rfl, rfl, hn⟩
        · split
          · exact closeNote_rel i note ch vel vel (s2.tick + t)
              { s1 with tick := s1.tick } s2 ha hn
          · exact ⟨rfl, rfl, hn⟩
    | noteOff note vel ch t =>
        dsimp only [parseStep]
        rw [ht]
        exact closeNote_rel i note ch 64 64 (s2.tick + t) s1 s2 ha hn
    | meta t =>
        dsimp only [parseStep]
        rw [ht]
        exact ⟨rfl, ha, hn⟩
  · dsimp only [parseStep]
    rw [if_neg (by omega), if_pos rfl, ht]
    exact closeNote_rel i p ch 0 64 (s2.tick + t) s1 s2 ha hn

theorem parseFold_msgEquiv (i : Nat) :
    ∀ {ms1 ms2 : List Msg}, List.Forall₂ msgEquiv ms1 ms2 →
      ∀ (s1 s2 : PState), s1.tick = s2.tick → s1.active = s2.active →
        s1.notes.map stripVel = s2.notes.map stripVel →
        (ms1.foldl (parseStep i) s1).tick = (ms2.foldl (parseStep i) s2).tick
        ∧ (ms1.foldl (parseStep i) s1).active = (ms2.foldl (parseStep i) s2).active
        ∧ (ms1.foldl (parseStep i) s1).notes.map stripVel
            = (ms2.foldl (parseStep i) s2).notes.map stripVel := by
  intro ms1 ms2 h
  induction h with
  | nil => intro s1 s2 ht ha hn; exact ⟨ht, ha, hn⟩
  | cons hm _ ih =>
      intro s1 s2 ht ha hn
      rw [List.foldl_cons, List.foldl_cons]
      have := parseStep_msgEquiv i s1 s2 _ _ hm ht ha hn
      exact ih _ _ this.1 this.2.1 this.2.2

/-- C1 (amended). Replacing velocity-0 `note_on` messages by explicit
`note_off` messages for the same key at the same time produces the same
NoteEvents up to the velocity field: the `(pitch, start_tick, end_tick,
channel, track_index)` projections agree position by position. -/
theorem C1_pairing_amended (tracks1 tracks2 : List (List Msg))
    (h : List.Forall₂ (List.Forall₂ msgEquiv) tracks1 tracks2) :
    (parse_notes tracks1).map stripVel = (parse_notes tracks2).map stripVel := by
  have main : ∀ {trs1 trs2 : List (List Msg)},
      List.Forall₂ (List.Forall₂ msgEquiv) trs1 trs2 →
      ∀ (i : Nat) (a1 a2 : Active), a1 = a2 →
        (parseTracksAux i a1 trs1).map stripVel
          = (parseTracksAux i a2 trs2).map stripVel := by
    intro trs1 trs2 hf
    induction hf with
    | nil => intro i a1 a2 _; rfl
    | cons hm _ ih =>
        intro i a1 a2 ha
        unfold parseTracksAux parseTrack
        rw [List.map_append, List.map_append]
        have hrel := parseFold_msgEquiv i hm ⟨0, a1, []⟩ ⟨0, a2, []⟩ rfl ha rfl
        rw [hrel.2.2, ih (i + 1) _ _ hrel.2.1]
  exact main h 0 Active.empty Active.empty rfl

/-- C1 counterexample: closing a note by a velocity-0 `note_on` records
velocity 0, while an explicit `note_off` at the same tick records velocity
64, so the two NoteEvent sets are not equal. -/
theorem C1_counterexample :
    parse_notes [[Msg.noteOn 60 100 0 0, Msg.noteOn 60 0 0 10]] = [⟨60, 0, 0, 10, 0, 0⟩]
    ∧ parse_notes [[Msg.noteOn 60 100 0 0, Msg.noteOff 60 0 0 10]] = [⟨60, 64, 0, 10, 0, 0⟩]
    ∧ (⟨60, 0, 0, 10, 0, 0⟩ : NoteEvent) ≠ ⟨60, 64, 0, 10, 0, 0⟩ := by
  exact ⟨rfl, rfl, by decide⟩

/-- Witness for C1 at a concrete pair of streams. -/
theorem C1_pairing_amended_witness :
    (parse_notes [[Msg.noteOn 60 100 0 0, Msg.noteOn 60 0 0 10]]).map stripVel
      = (parse_notes [[Msg.noteOn 60 100 0 0, Msg.noteOff 60 0 0 10]]).map stripVel := by
  apply C1_pairing_amended
  refine List.Forall₂.cons ?_ List.Forall₂.nil
  refine List.Forall₂.cons (Or.inl rfl) (List.Forall₂.cons ?_ List.Forall₂.nil)
  exact Or.inr ⟨60, 0, 10, 0, rfl, rfl⟩

/-! ## Absolute-tick view of `parse_notes` (infrastructure for C2 and C6) -/

/-- The delta time of a message. -/
def Msg.time : Msg → Int
  | .noteOn _ _ _ t => t
  | .noteOff _ _ _ t => t
  | .meta t => t

/-- Cumulative-sum view of a track: each message paired with its absolute
tick (`current_tick` after adding the message's delta). -/
def absolutize (t0 : Int) : List Msg → List (Int × Msg)
  | [] => []
  | m :: rest => (t0 + m.time, m) :: absolutize (t0 + m.time) rest

/-- `parse_notes` on one track, restated over absolute-tick events. -/
def parseAbs (i : Nat) (a : Active) : List (Int × Msg) → List NoteEvent
  | [] => []
  | (t, .noteOn note vel ch _) :: rest =>
      if 0 < vel then parseAbs i (a.set (i, ch, note) t) rest
      else if vel = 0 then
        match a (i, ch, note) with
        | some st => ⟨note, vel, st, t, ch, i⟩ :: parseAbs i (a.erase (i, ch, note)) rest
        | none => parseAbs i a rest
      else parseAbs i a rest
  | (t, .noteOff note _ ch _) :: rest =>
      match a (i, ch, note) with
      | some st => ⟨note, 64, st, t, ch, i⟩ :: parseAbs i (a.erase (i, ch, note)) rest
      | none => parseAbs i a rest
  | (_, .meta _) :: rest => parseAbs i a rest

/-- The `active_notes` key addressed by an absolute event, if any. -/
def evKey (i : Nat) : Int × Msg → Option NKey
  | (_, .noteOn note _ ch _) => some (i, ch, note)
  | (_, .noteOff note _ ch _) => some (i, ch, note)
  | (_, .meta _) => none

/-- The single-slot pairing automaton restricted to one key
`(i, ch, note)`, run over that key's event subsequence. -/
def parseKey (i : Nat) (ch note : Int) (slot : Option Int) :
    List (Int × Msg) → List NoteEvent
  | [] => []
  | (t, .noteOn _ vel _ _) :: rest =>
      if 0 < vel then parseKey i ch note (some t) rest
      else if vel = 0 then
        match slot with
        | some st => ⟨note, vel, st, t, ch, i⟩ :: parseKey i ch note none rest
        | none => parseKey i ch note none rest
      else parseKey i ch note slot rest
  | (t, .noteOff _ _ _ _) :: rest =>
      match slot with
      | some st => ⟨note, 64, st, t, ch, i⟩ :: parseKey i ch note none rest
      | none => parseKey i ch note none rest
  | (_, .meta _) :: rest => parseKey i ch note slot rest

/-- The notes of one track parsed in isolation (empty dict, tick 0). -/
def trackNotes (i : Nat) (msgs : List Msg) : List NoteEvent :=
  parseAbs i Active.empty (absolutize 0 msgs)

/-- The concatenation of isolated per-track parses. -/
def tracksNotes (i : Nat) : List (List Msg) → List NoteEvent
  | [] => []
  | tr :: rest => trackNotes i tr ++ tracksNotes (i + 1) rest

/-- Equation lemmas for `parseAbs`, one per branch. -/
theorem parseAbs_on_pos {i a note vel ch d t rest} (hv : 0 < vel) :
    parseAbs i a ((t, Msg.noteOn note vel ch d) :: rest)
      = parseAbs i (a.set (i, ch, note) t) rest := by
  simp [parseAbs, hv]

theorem parseAbs_on_zero_some {i} {a : Active} {note vel ch d t rest st}
    (hz : vel = 0) (hcase : a (i, ch, note) = some st) :
    parseAbs i a ((t, Msg.noteOn note vel ch d) :: rest)
      = ⟨note, vel, st, t, ch, i⟩ :: parseAbs i (a.erase (i, ch, note)) rest := by
  subst hz
  simp [parseAbs, hcase]

theorem parseAbs_on_zero_none {i} {a : Active} {note vel ch d t rest}
    (hz : vel = 0) (hcase : a (i, ch, note) = none) :
    parseAbs i a ((t, Msg.noteOn note vel ch d) :: rest) = parseAbs i a rest := by
  subst hz
  simp [parseAbs, hcase]

theorem parseAbs_on_neg {i a note vel ch d t rest} (hv : ¬0 < vel) (hz : ¬vel = 0) :
    parseAbs i a ((t, Msg.noteOn note vel ch d) :: rest) = parseAbs i a rest := by
  simp [parseAbs, hv, hz]

theorem parseAbs_off_some {i} {a : Active} {note vel ch d t rest st}
    (hcase : a (i, ch, note) = some st) :
    parseAbs i a ((t, Msg.noteOff note vel ch d) :: rest)
      = ⟨note, 64, st, t, ch, i⟩ :: parseAbs i (a.erase (i, ch, note)) rest := by
  simp [parseAbs, hcase]

theorem parseAbs_off_none {i} {a : Active} {note vel ch d t rest}
    (hcase : a (i, ch, note) = none) :
    parseAbs i a ((t, Msg.noteOff note vel ch d) :: rest) = parseAbs i a rest := by
  simp [parseAbs, hcase]

theorem parseAbs_meta {i a d t rest} :
    parseAbs i a ((t, Msg.meta d) :: rest) = parseAbs i a rest := by
  simp [parseAbs]

/-- Equation lemmas for `parseKey`, one per branch. -/
theorem parseKey_on_pos {i ch note slot note2 vel ch2 d t rest} (hv : 0 < vel) :
    parseKey i ch note slot ((t, Msg.noteOn note2 vel ch2 d) :: rest)
      = parseKey i ch note (some t) rest := by
  simp [parseKey, hv]

theorem parseKey_on_zero_some {i ch note note2 vel ch2 d t rest st} (hz : vel = 0) :
    parseKey i ch note (some st) ((t, Msg.noteOn note2 vel ch2 d) :: rest)
      = ⟨note, vel, st, t, ch, i⟩ :: parseKey i ch note none rest := by
  subst hz
  simp [parseKey]

theorem parseKey_on_zero_none {i ch note note2 vel ch2 d t rest} (hz : vel = 0) :
    parseKey i ch note none ((t, Msg.noteOn note2 vel ch2 d) :: rest)
      = parseKey i ch note none rest := by
  subst hz
  simp [parseKey]

theorem parseKey_on_neg {i ch note slot note2 vel ch2 d t rest}
    (hv : ¬0 < vel) (hz : ¬vel = 0) :
    parseKey i ch note slot ((t, Msg.noteOn note2 vel ch2 d) :: rest)
      = parseKey i ch note slot rest := by
  simp [parseKey, hv, hz]

theorem parseKey_off_some {i ch note note2 vel ch2 d t rest st} :
    parseKey i ch note (some st) ((t, Msg.noteOff note2 vel ch2 d) :: rest)
      = ⟨note, 64, st, t, ch, i⟩ :: parseKey i ch note none rest := by
  simp [parseKey]

theorem parseKey_off_none {i ch note note2 vel ch2 d t rest} :
    parseKey i ch note none ((t, Msg.noteOff note2 vel ch2 d) :: rest)
      = parseKey i ch note none rest := by
  simp [parseKey]

theorem parseKey_meta {i ch note slot d t rest} :
    parseKey i ch note slot ((t, Msg.meta d) :: rest)
      = parseKey i ch note slot rest := by
  simp [parseKey]

/-- The per-track loop of `parse_notes`, restated over absolute ticks. -/
theorem foldl_notes_parseAbs (i : Nat) :
    ∀ (msgs : List Msg) (s : PState),
      (msgs.foldl (parseStep i) s).notes
        = s.notes ++ parseAbs i s.active (absolutize s.tick msgs) := by
  intro msgs
  induction msgs with
  | nil => intro s; simp [absolutize, parseAbs]
  | cons m msgs ih =>
      intro s
      rw [List.foldl_cons, ih]
      rw [show absolutize s.tick (m :: msgs)
        = (s.tick + m.time, m) :: absolutize (s.tick + m.time) msgs from rfl]
      cases m with
      | noteOn note vel ch t =>
          rw [show Msg.time (.noteOn note vel ch t) = t from rfl]
          dsimp only [parseStep]
          by_cases hv : 0 < vel
          · rw [if_pos hv, parseAbs_on_pos hv]
          · rw [if_neg hv]
            by_cases hz : vel = 0
            · rw [if_pos hz]
              unfold closeNote
              rcases hcase : s.active (i, ch, note) with _ | st
              · rw [parseAbs_on_zero_none hz hcase]
              · rw [parseAbs_on_zero_some hz hcase]
                simp
            · rw [if_neg hz, parseAbs_on_neg hv hz]
      | noteOff note vel ch t =>
          rw [show Msg.time (.noteOff note vel ch t) = t from rfl]
          dsimp only [parseStep]
          unfold closeNote
          rcases hcase : s.active (i, ch, note) with _ | st
          · rw [parseAbs_off_none hcase]
          · rw [parseAbs_off_some hcase]
            simp
      | meta t =>
          rw [show Msg.time (.meta t) = t from rfl]
          rw [parseAbs_meta]
          rfl

/-- Running one track only creates or destroys `active_notes` entries of its
own track index. -/
theorem foldl_active_frame (i : Nat) :
    ∀ (msgs : List Msg) (s : PState) (k : NKey), k.1 ≠ i →
      (msgs.foldl (parseStep i) s).active k = s.active k := by
  intro msgs
  induction msgs with
  | nil => intro s k _; rfl
  | cons m msgs ih =>
      intro s k hk
      rw [List.foldl_cons, ih _ k hk]
      have hkne : ∀ ch note, k ≠ (i, ch, note) := by
        intro ch note h
        exact hk (by rw [h])
      cases m with
      | noteOn note vel ch t =>
          dsimp only [parseStep]
          by_cases hv : 0 < vel
          · rw [if_pos hv]
            show Active.set _ _ _ k = _
            unfold Active.set
            rw [if_neg (hkne ch note)]
          · rw [if_neg hv]
            by_cases hz : vel = 0
            · rw [if_pos hz]
              unfold closeNote
              rcases hcase : s.active (i, ch, note) with _ | st
              · rfl
              · show Active.erase _ _ k = _
                unfold Active.erase
                rw [if_neg (hkne ch note)]
            · rw [if_neg hz]
      | noteOff note vel ch t =>
          dsimp only [parseStep]
          unfold closeNote
          rcases hcase : s.active (i, ch, note) with _ | st
          · rfl
          · show Active.erase _ _ k = _
            unfold Active.erase
            rw [if_neg (hkne ch note)]
      | meta t => rfl

/-- `parseAbs` only reads the dict at the keys of its events: actives that
agree there give equal results. -/
theorem parseAbs_agree_on (i : Nat) :
    ∀ (evs : List (Int × Msg)) (a b : Active),
      (∀ e ∈ evs, ∀ k, evKey i e = some k → a k = b k) →
      parseAbs i a evs = parseAbs i b evs := by
  intro evs
  induction evs with
  | nil => intro a b _; rfl
  | cons e evs ih =>
      intro a b h
      obtain ⟨t, m⟩ := e
      have htail : ∀ (a2 b2 : Active),
          (∀ k, a2 k = b2 k ∨ ∀ e ∈ evs, ¬evKey i e = some k) →
          (∀ e ∈ evs, ∀ k, evKey i e = some k → a2 k = b2 k) := by
        intro a2 b2 hagree e2 he2 k hk
        rcases hagree k with h2 | h2
        · exact h2
        · exact absurd hk (h2 e2 he2)
      cases m with
      | noteOn note vel ch d =>
          have hkey : a (i, ch, note) = b (i, ch, note) :=
            h (t, Msg.noteOn note vel ch d) (by simp) (i, ch, note) rfl
          by_cases hv : 0 < vel
          · rw [parseAbs_on_pos hv, parseAbs_on_pos hv]
            apply ih
            intro e2 he2 k hk
            unfold Active.set
            by_cases hke : k = (i, ch, note)
            · rw [if_pos hke, if_pos hke]
            · rw [if_neg hke, if_neg hke]
              exact h e2 (by simp [he2]) k hk
          · by_cases hz : vel = 0
            · rcases hcase : b (i, ch, note) with _ | st
              · rw [parseAbs_on_zero_none hz (hkey.trans hcase),
                  parseAbs_on_zero_none hz hcase]
                exact ih a b fun e2 he2 k hk => h e2 (by simp [he2]) k hk
              · rw [parseAbs_on_zero_some hz (hkey.trans hcase),
                  parseAbs_on_zero_some hz hcase]
                congr 1
                apply ih
                intro e2 he2 k hk
                unfold Active.erase
                by_cases hke : k = (i, ch, note)
                · rw [if_pos hke, if_pos hke]
                · rw [if_neg hke, if_neg hke]
                  exact h e2 (by simp [he2]) k hk
            · rw [parseAbs_on_neg hv hz, parseAbs_on_neg hv hz]
              exact ih a b fun e2 he2 k hk => h e2 (by simp [he2]) k hk
      | noteOff note vel ch d =>
          have hkey : a (i, ch, note) = b (i, ch, note) :=
            h (t, Msg.noteOff note vel ch d) (by simp) (i, ch, note) rfl
          rcases hcase : b (i, ch, note) with _ | st
          · rw [parseAbs_off_none (hkey.trans hcase), parseAbs_off_none hcase]
            exact ih a b fun e2 he2 k hk => h e2 (by simp [he2]) k hk
          · rw [parseAbs_off_some (hkey.trans hcase), parseAbs_off_some hcase]
            congr 1
            apply ih
            intro e2 he2 k hk
            unfold Active.erase
            by_cases hke : k = (i, ch, note)
            · rw [if_pos hke, if_pos hke]
            · rw [if_neg hke, if_neg hke]
              exact h e2 (by simp [he2]) k hk
      | meta d =>
          rw [parseAbs_meta, parseAbs_meta]
          exact ih a b fun e2 he2 k hk => h e2 (by simp [he2]) k hk

theorem evKey_fst (i : Nat) (e : Int × Msg) (k : NKey) (h : evKey i e = some k) :
    k.1 = i := by
  obtain ⟨t, m⟩ := e
  cases m with
  | noteOn note vel ch d =>
      rw [evKey] at h
      cases h
      rfl
  | noteOff note vel ch d =>
      rw [evKey] at h
      cases h
      rfl
  | meta d =>
      rw [evKey] at h
      cases h

/-- `parse_notes` splits into independent per-track parses: the dict entries
carried across track boundaries have smaller track indices and are never
read again. -/
theorem parseTracksAux_tracksNotes :
    ∀ (trs : List (List Msg)) (i : Nat) (a : Active),
      (∀ k : NKey, i ≤ k.1 → a k = none) →
      parseTracksAux i a trs = tracksNotes i trs := by
  intro trs
  induction trs with
  | nil => intro i a _; rfl
  | cons tr rest ih =>
      intro i a h
      unfold parseTracksAux tracksNotes
      have hnotes : (parseTrack i a tr).notes = trackNotes i tr := by
        unfold parseTrack trackNotes
        rw [foldl_notes_parseAbs]
        show [] ++ _ = _
        rw [List.nil_append]
        apply parseAbs_agree_on
        intro e _ k hk
        have h1 : k.1 = i := evKey_fst i e k hk
        show a k = Active.empty k
        rw [h k (le_of_eq h1.symm)]
        rfl
      show (parseTrack i a tr).notes ++ parseTracksAux (i + 1) (parseTrack i a tr).active rest
        = trackNotes i tr ++ tracksNotes (i + 1) rest
      rw [hnotes]
      congr 1
      apply ih
      intro k hk
      have hne : k.1 ≠ i := by omega
      unfold parseTrack
      rw [foldl_active_frame i tr _ k hne]
      exact h k (by omega)

theorem parse_notes_tracksNotes (tracks : List (List Msg)) :
    parse_notes tracks = tracksNotes 0 tracks := by
  unfold parse_notes
  exact parseTracksAux_tracksNotes tracks 0 Active.empty (fun _ _ => rfl)

theorem parseAbs_set_invisible (i : Nat) (a : Active) (k : NKey) (t : Int)
    (evs : List (Int × Msg)) (h : ∀ e ∈ evs, ¬(evKey i e = some k)) :
    parseAbs i (a.set k t) evs = parseAbs i a evs := by
  apply parseAbs_agree_on
  intro e he k2 hk2
  unfold Active.set
  have hne : k2 ≠ k := by
    intro hc
    subst hc
    exact h e he hk2
  rw [if_neg hne]

theorem parseAbs_erase_invisible (i : Nat) (a : Active) (k : NKey)
    (evs : List (Int × Msg)) (h : ∀ e ∈ evs, ¬(evKey i e = some k)) :
    parseAbs i (a.erase k) evs = parseAbs i a evs := by
  apply parseAbs_agree_on
  intro e he k2 hk2
  unfold Active.erase
  have hne : k2 ≠ k := by
    intro hc
    subst hc
    exact h e he hk2
  rw [if_neg hne]

/-- Peeling one key out of the single-slot pairing automaton: the parse of a
track is, up to permutation, the notes of one key's subsequence (run on its
single slot) followed by the parse of the remaining events. -/
theorem parseAbs_peel (i : Nat) (ch note : Int) :
    ∀ (evs : List (Int × Msg)) (a : Active),
      (parseAbs i a evs).Perm
        (parseKey i ch note (a (i, ch, note))
            (evs.filter fun e => evKey i e = some ((i : Nat), ch, note))
          ++ parseAbs i a (evs.filter fun e => ¬(evKey i e = some ((i : Nat), ch, note)))) := by
  intro evs
  induction evs with
  | nil => intro a; simp [parseAbs, parseKey]
  | cons e evs ih =>
      intro a
      have hmem : ∀ e2 ∈ evs.filter (fun e => ¬(evKey i e = some ((i : Nat), ch, note))),
          ¬(evKey i e2 = some ((i : Nat), ch, note)) := by
        intro e2 he2
        simpa using (List.mem_filter.mp he2).2
      obtain ⟨t, m⟩ := e
      cases m with
      | meta d =>
          have hf1 : (((t, Msg.meta d) :: evs).filter
              fun e => evKey i e = some ((i : Nat), ch, note))
              = evs.filter fun e => evKey i e = some ((i : Nat), ch, note) := by
            rw [List.filter_cons]
            simp [evKey]
          have hf2 : (((t, Msg.meta d) :: evs).filter
              fun e => ¬(evKey i e = some ((i : Nat), ch, note)))
              = (t, Msg.meta d) :: evs.filter
                  fun e => ¬(evKey i e = some ((i : Nat), ch, note)) := by
            rw [List.filter_cons]
            simp [evKey]
          rw [parseAbs_meta, hf1, hf2, parseAbs_meta]
          exact ih a
      | noteOn note2 vel ch2 d =>
          by_cases hk : ((i, ch2, note2) : NKey) = ((i : Nat), ch, note)
          · have hk2 := hk
            simp only [Prod.mk.injEq, true_and] at hk2
            obtain ⟨rfl, rfl⟩ := hk2
            have hf1 : (((t, Msg.noteOn note2 vel ch2 d) :: evs).filter
                fun e => evKey i e = some ((i : Nat), ch2, note2))
                = (t, Msg.noteOn note2 vel ch2 d) :: evs.filter
                    fun e => evKey i e = some ((i : Nat), ch2, note2) := by
              rw [List.filter_cons]
              simp [evKey]
            have hf2 : (((t, Msg.noteOn note2 vel ch2 d) :: evs).filter
                fun e => ¬(evKey i e = some ((i : Nat), ch2, note2)))
                = evs.filter fun e => ¬(evKey i e = some ((i : Nat), ch2, note2)) := by
              rw [List.filter_cons]
              simp [evKey]
            by_cases hv : 0 < vel
            · rw [parseAbs_on_pos hv, hf1, hf2, parseKey_on_pos hv]
              have hrec := ih (a.set (i, ch2, note2) t)
              have hslot : Active.set a (i, ch2, note2) t ((i : Nat), ch2, note2)
                  = some t := by
                unfold Active.set
                rw [if_pos rfl]
              have hinv : parseAbs i (a.set (i, ch2, note2) t)
                  (evs.filter fun e => ¬(evKey i e = some ((i : Nat), ch2, note2)))
                  = parseAbs i a
                      (evs.filter fun e => ¬(evKey i e = some ((i : Nat), ch2, note2))) :=
                parseAbs_set_invisible i a (i, ch2, note2) t _ hmem
              rw [hslot, hinv] at hrec
              exact hrec
            · by_cases hz : vel = 0
              · rcases hcase : a ((i : Nat), ch2, note2) with _ | st
                · rw [parseAbs_on_zero_none hz hcase, hf1, hf2, parseKey_on_zero_none hz]
                  have hrec := ih a
                  rw [hcase] at hrec
                  exact hrec
                · rw [parseAbs_on_zero_some hz hcase, hf1, hf2,
                    parseKey_on_zero_some hz, List.cons_append]
                  apply List.Perm.cons
                  have hrec := ih (a.erase (i, ch2, note2))
                  have hslot : Active.erase a (i, ch2, note2) ((i : Nat), ch2, note2)
                      = none := by
                    unfold Active.erase
                    rw [if_pos rfl]
                  have hinv : parseAbs i (a.erase (i, ch2, note2))
                      (evs.filter fun e => ¬(evKey i e = some ((i : Nat), ch2, note2)))
                      = parseAbs i a
                          (evs.filter fun e => ¬(evKey i e = some ((i : Nat), ch2, note2))) :=
                    parseAbs_erase_invisible i a (i, ch2, note2) _ hmem
                  rw [hslot, hinv] at hrec
                  exact hrec
              · rw [parseAbs_on_neg hv hz, hf1, hf2, parseKey_on_neg hv hz]
                exact ih a
          · have hf1 : (((t, Msg.noteOn note2 vel ch2 d) :: evs).filter
                fun e => evKey i e = some ((i : Nat), ch, note))
                = evs.filter fun e => evKey i e = some ((i : Nat), ch, note) := by
              rw [List.filter_cons]
              simp [evKey, hk]
            have hf2 : (((t, Msg.noteOn note2 vel ch2 d) :: evs).filter
                fun e => ¬(evKey i e = some ((i : Nat), ch, note)))
                = (t, Msg.noteOn note2 vel ch2 d) :: evs.filter
                    fun e => ¬(evKey i e = some ((i : Nat), ch, note)) := by
              rw [List.filter_cons]
              simp [evKey, hk]
            have hne : ((i : Nat), ch, note) ≠ ((i, ch2, note2) : NKey) :=
              fun hc => hk hc.symm
            by_cases hv : 0 < vel
            · rw [parseAbs_on_pos hv, hf1, hf2, parseAbs_on_pos hv]
              have hrec := ih (a.set (i, ch2, note2) t)
              have hslot : Active.set a (i, ch2, note2) t ((i : Nat), ch, note)
                  = a ((i : Nat), ch, note) := by
                unfold Active.set
                rw [if_neg hne]
              rw [hslot] at hrec
              exact hrec
            · by_cases hz : vel = 0
              · rcases hcase : a ((i : Nat), ch2, note2) with _ | st
                · rw [parseAbs_on_zero_none hz hcase, hf1, hf2,
                    parseAbs_on_zero_none hz hcase]
                  exact ih a
                · rw [parseAbs_on_zero_some hz hcase, hf1, hf2,
                    parseAbs_on_zero_some hz hcase]
                  have hrec := ih (a.erase (i, ch2, note2))
                  have hslot : Active.erase a (i, ch2, note2) ((i : Nat), ch, note)
                      = a ((i : Nat), ch, note) := by
                    unfold Active.erase
                    rw [if_neg hne]
                  rw [hslot] at hrec
                  exact (List.Perm.cons _ hrec).trans List.perm_middle.symm
              · rw [parseAbs_on_neg hv hz, hf1, hf2, parseAbs_on_neg hv hz]
                exact ih a
      | noteOff note2 vel ch2 d =>
          by_cases hk : ((i, ch2, note2) : NKey) = ((i : Nat), ch, note)
          · have hk2 := hk
            simp only [Prod.mk.injEq, true_and] at hk2
            obtain ⟨rfl, rfl⟩ := hk2
            have hf1 : (((t, Msg.noteOff note2 vel ch2 d) :: evs).filter
                fun e => evKey i e = some ((i : Nat), ch2, note2))
                = (t, Msg.noteOff note2 vel ch2 d) :: evs.filter
                    fun e => evKey i e = some ((i : Nat), ch2, note2) := by
              rw [List.filter_cons]
              simp [evKey]
            have hf2 : (((t, Msg.noteOff note2 vel ch2 d) :: evs).filter
                fun e => ¬(evKey i e = some ((i : Nat), ch2, note2)))
                = evs.filter fun e => ¬(evKey i e = some ((i : Nat), ch2, note2)) := by
              rw [List.filter_cons]
              simp [evKey]
            rcases hcase : a ((i : Nat), ch2, note2) with _ | st
            · rw [parseAbs_off_none hcase, hf1, hf2, parseKey_off_none]
              have hrec := ih a
              rw [hcase] at hrec
              exact hrec
            · rw [parseAbs_off_some hcase, hf1, hf2, parseKey_off_some,
                List.cons_append]
              apply List.Perm.cons
              have hrec := ih (a.erase (i, ch2, note2))
              have hslot : Active.erase a (i, ch2, note2) ((i : Nat), ch2, note2)
                  = none := by
                unfold Active.erase
                rw [if_pos rfl]
              have hinv : parseAbs i (a.erase (i, ch2, note2))
                  (evs.filter fun e => ¬(evKey i e = some ((i : Nat), ch2, note2)))
                  = parseAbs i a
                      (evs.filter fun e => ¬(evKey i e = some ((i : Nat), ch2, note2))) :=
                parseAbs_erase_invisible i a (i, ch2, note2) _ hmem
              rw [hslot, hinv] at hrec
              exact hrec
          · have hf1 : (((t, Msg.noteOff note2 vel ch2 d) :: evs).filter
                fun e => evKey i e = some ((i : Nat), ch, note))
                = evs.filter fun e => evKey i e = some ((i : Nat), ch, note) := by
              rw [List.filter_cons]
              simp [evKey, hk]
            have hf2 : (((t, Msg.noteOff note2 vel ch2 d) :: evs).filter
                fun e => ¬(evKey i e = some ((i : Nat), ch, note)))
                = (t, Msg.noteOff note2 vel ch2 d) :: evs.filter
                    fun e => ¬(evKey i e = some ((i : Nat), ch, note)) := by
              rw [List.filter_cons]
              simp [evKey, hk]
            have hne : ((i : Nat), ch, note) ≠ ((i, ch2, note2) : NKey) :=
              fun hc => hk hc.symm
            rcases hcase : a ((i : Nat), ch2, note2) with _ | st
            · rw [parseAbs_off_none hcase, hf1, hf2, parseAbs_off_none hcase]
              exact ih a
            · rw [parseAbs_off_some hcase, hf1, hf2, parseAbs_off_some hcase]
              have hrec := ih (a.erase (i, ch2, note2))
              have hslot : Active.erase a (i, ch2, note2) ((i : Nat), ch, note)
                  = a ((i : Nat), ch, note) := by
                unfold Active.erase
                rw [if_neg hne]
              rw [hslot] at hrec
              exact (List.Perm.cons _ hrec).trans List.perm_middle.symm

theorem parseAbs_no_keys (i : Nat) :
    ∀ (evs : List (Int × Msg)) (a : Active),
      (∀ e ∈ evs, ∀ k : NKey, ¬(evKey i e = some k)) → parseAbs i a evs = [] := by
  intro evs
  induction evs with
  | nil => intro a _; rfl
  | cons e evs ih =>
      intro a h
      obtain ⟨t, m⟩ := e
      cases m with
      | noteOn note vel ch d =>
          exact absurd rfl (h (t, .noteOn note vel ch d) (by simp) (i, ch, note))
      | noteOff note vel ch d =>
          exact absurd rfl (h (t, .noteOff note vel ch d) (by simp) (i, ch, note))
      | meta d =>
          rw [parseAbs_meta]
          exact ih a fun e he k => h e (by simp [he]) k

/-- Every note emitted by `parseAbs` carries the track index and a key that
occurs among the events. -/
theorem parseAbs_mem_shape (i : Nat) :
    ∀ (evs : List (Int × Msg)) (a : Active), ∀ n ∈ parseAbs i a evs,
      n.track_idx = i
      ∧ ∃ e ∈ evs, evKey i e = some ((i : Nat), n.channel, n.pitch) := by
  intro evs
  induction evs with
  | nil => simp [parseAbs]
  | cons e evs ih =>
      intro a n hn
      obtain ⟨t, m⟩ := e
      cases m with
      | noteOn note vel ch d =>
          by_cases hv : 0 < vel
          · rw [parseAbs_on_pos hv] at hn
            rcases ih _ n hn with ⟨h1, e2, he2, hk2⟩
            exact ⟨h1, e2, by simp [he2], hk2⟩
          · by_cases hz : vel = 0
            · rcases hcase : a ((i : Nat), ch, note) with _ | st
              · rw [parseAbs_on_zero_none hz hcase] at hn
                rcases ih _ n hn with ⟨h1, e2, he2, hk2⟩
                exact ⟨h1, e2, by simp [he2], hk2⟩
              · rw [parseAbs_on_zero_some hz hcase] at hn
                rcases List.mem_cons.mp hn with rfl | hn
                · exact ⟨rfl, (t, .noteOn note vel ch d), by simp, rfl⟩
                · rcases ih _ n hn with ⟨h1, e2, he2, hk2⟩
                  exact ⟨h1, e2, by simp [he2], hk2⟩
            · rw [parseAbs_on_neg hv hz] at hn
              rcases ih _ n hn with ⟨h1, e2, he2, hk2⟩
              exact ⟨h1, e2, by simp [he2], hk2⟩
      | noteOff note vel ch d =>
          rcases hcase : a ((i : Nat), ch, note) with _ | st
          · rw [parseAbs_off_none hcase] at hn
            rcases ih _ n hn with ⟨h1, e2, he2, hk2⟩
            exact ⟨h1, e2, by simp [he2], hk2⟩
          · rw [parseAbs_off_some hcase] at hn
            rcases List.mem_cons.mp hn with rfl | hn
            · exact ⟨rfl, (t, .noteOff note vel ch d), by simp, rfl⟩
            · rcases ih _ n hn with ⟨h1, e2, he2, hk2⟩
              exact ⟨h1, e2, by simp [he2], hk2⟩
      | meta d =>
          rw [parseAbs_meta] at hn
          rcases ih _ n hn with ⟨h1, e2, he2, hk2⟩
          exact ⟨h1, e2, by simp [he2], hk2⟩

/-- Every note emitted by `parseKey i ch note` carries exactly that channel,
pitch and track index. -/
theorem parseKey_fields (i : Nat) (ch note : Int) :
    ∀ (evs : List (Int × Msg)) (slot : Option Int), ∀ n ∈ parseKey i ch note slot evs,
      n.channel = ch ∧ n.pitch = note ∧ n.track_idx = i := by
  intro evs
  induction evs with
  | nil => simp [parseKey]
  | cons e evs ih =>
      intro slot n hn
      obtain ⟨t, m⟩ := e
      cases m with
      | noteOn note2 vel ch2 d =>
          by_cases hv : 0 < vel
          · rw [parseKey_on_pos hv] at hn
            exact ih _ n hn
          · by_cases hz : vel = 0
            · rcases slot with _ | st
              · rw [parseKey_on_zero_none hz] at hn
                exact ih _ n hn
              · rw [parseKey_on_zero_some hz] at hn
                rcases List.mem_cons.mp hn with rfl | hn
                · exact ⟨rfl, rfl, rfl⟩
                · exact ih _ n hn
            · rw [parseKey_on_neg hv hz] at hn
              exact ih _ n hn
      | noteOff note2 vel ch2 d =>
          rcases slot with _ | st
          · rw [parseKey_off_none] at hn
            exact ih _ n hn
          · rw [parseKey_off_some] at hn
            rcases List.mem_cons.mp hn with rfl | hn
            · exact ⟨rfl, rfl, rfl⟩
            · exact ih _ n hn
      | meta d =>
          rw [parseKey_meta] at hn
          exact ih _ n hn

/-- Full per-key decomposition: the parse of a track is a permutation of the
concatenation, over any duplicate-free key cover, of each key's single-slot
run on its own event subsequence. -/
theorem parseAbs_join (i : Nat) :
    ∀ (ks : List (Int × Int)) (evs : List (Int × Msg)) (a : Active),
      ks.Nodup →
      (∀ e ∈ evs, ∀ k : NKey, evKey i e = some k → (k.2.1, k.2.2) ∈ ks) →
      (parseAbs i a evs).Perm
        ((ks.map fun kp => parseKey i kp.1 kp.2 (a (i, kp.1, kp.2))
            (evs.filter fun e => evKey i e = some ((i : Nat), kp.1, kp.2))).flatten) := by
  intro ks
  induction ks with
  | nil =>
      intro evs a _ hcov
      have hempty : parseAbs i a evs = [] :=
        parseAbs_no_keys i evs a fun e he k hk =>
          absurd (hcov e he k hk) (List.not_mem_nil _)
      rw [hempty]
      simp
  | cons kp ks ih =>
      obtain ⟨kpc, kpn⟩ := kp
      intro evs a hnd hcov
      have hknotin : (kpc, kpn) ∉ ks := (List.nodup_cons.mp hnd).1
      have hnd2 := (List.nodup_cons.mp hnd).2
      have hpeel := parseAbs_peel i kpc kpn evs a
      have hcov2 : ∀ e ∈ evs.filter (fun e => ¬(evKey i e = some ((i : Nat), kpc, kpn))),
          ∀ k : NKey, evKey i e = some k → (k.2.1, k.2.2) ∈ ks := by
        intro e he k hkk
        have hme := List.mem_filter.mp he
        have h1 := hcov e hme.1 k hkk
        rcases List.mem_cons.mp h1 with h2 | h2
        · exfalso
          have hfst : k.1 = i := evKey_fst i e k hkk
          have hnot : ¬(evKey i e = some ((i : Nat), kpc, kpn)) := by
            simpa using hme.2
          apply hnot
          rw [hkk]
          obtain ⟨k1, kc, kn⟩ := k
          simp only at hfst h2
          subst hfst
          have hc1 : kc = kpc := congrArg Prod.fst h2
          have hc2 : kn = kpn := congrArg Prod.snd h2
          rw [hc1, hc2]
        · exact h2
      have hih := ih (evs.filter fun e => ¬(evKey i e = some ((i : Nat), kpc, kpn)))
        a hnd2 hcov2
      have hfib : ∀ kp2 ∈ ks,
          ((evs.filter fun e => ¬(evKey i e = some ((i : Nat), kpc, kpn))).filter
            fun e => evKey i e = some ((i : Nat), kp2.1, kp2.2))
          = evs.filter fun e => evKey i e = some ((i : Nat), kp2.1, kp2.2) := by
        intro kp2 hkp2
        rw [List.filter_filter]
        apply List.filter_congr
        intro e _
        by_cases he : evKey i e = some ((i : Nat), kp2.1, kp2.2)
        · have hne : ¬(evKey i e = some ((i : Nat), kpc, kpn)) := by
            rw [he]
            intro hc
            have hc2 : kp2 = (kpc, kpn) := by
              have hinj := Option.some.inj hc
              have h21 : kp2.1 = kpc := congrArg (fun q : NKey => q.2.1) hinj
              have h22 : kp2.2 = kpn := congrArg (fun q : NKey => q.2.2) hinj
              obtain ⟨x, y⟩ := kp2
              simp only at h21 h22
              rw [h21, h22]
            exact hknotin (hc2 ▸ hkp2)
          rw [decide_eq_true he, decide_eq_true hne]
          rfl
        · rw [decide_eq_false he]
          rfl
      have hmapeq : (ks.map fun kp2 => parseKey i kp2.1 kp2.2 (a (i, kp2.1, kp2.2))
            ((evs.filter fun e => ¬(evKey i e = some ((i : Nat), kpc, kpn))).filter
              fun e => evKey i e = some ((i : Nat), kp2.1, kp2.2)))
          = ks.map fun kp2 => parseKey i kp2.1 kp2.2 (a (i, kp2.1, kp2.2))
              (evs.filter fun e => evKey i e = some ((i : Nat), kp2.1, kp2.2)) := by
        apply List.map_congr_left
        intro kp2 h2
        rw [hfib kp2 h2]
      rw [hmapeq] at hih
      simp only [List.map_cons, List.flatten_cons]
      exact hpeel.trans (List.Perm.append_left _ hih)

/-! ## C2: overlapping retriggers -/

/-- The projection of one absolute event onto a key's trace:
`(tick, is_closing_kind, velocity)`. -/
def keyTraceF (ch p : Int) : Int × Msg → Option (Int × Bool × Int)
  | (t, .noteOn note vel ch2 _) => if ch2 = ch ∧ note = p then some (t, false, vel) else none
  | (t, .noteOff note vel ch2 _) => if ch2 = ch ∧ note = p then some (t, true, vel) else none
  | (_, .meta _) => none

/-- The `(tick, kind, velocity)` subsequence of one `(channel, pitch)` key in
a track, at absolute ticks (`false` = note_on, `true` = note_off). -/
def keyTrace (ch p : Int) (msgs : List Msg) : List (Int × Bool × Int) :=
  (absolutize 0 msgs).filterMap (keyTraceF ch p)

def evShape : Int × Msg → Int × Bool × Int
  | (t, .noteOn _ v _ _) => (t, false, v)
  | (t, .noteOff _ v _ _) => (t, true, v)
  | (t, .meta _) => (t, false, 0)

theorem filterMap_keyTraceF (i : Nat) (ch p : Int) :
    ∀ l : List (Int × Msg),
      l.filterMap (keyTraceF ch p)
        = (l.filter fun e => evKey i e = some ((i : Nat), ch, p)).map evShape := by
  intro l
  induction l with
  | nil => rfl
  | cons e l ih =>
      obtain ⟨t, m⟩ := e
      rw [List.filterMap_cons, List.filter_cons]
      cases m with
      | noteOn note vel ch2 d =>
          by_cases hcd : ch2 = ch ∧ note = p
          · have h1 : keyTraceF ch p (t, .noteOn note vel ch2 d) = some (t, false, vel) := by
              simp [keyTraceF, hcd]
            have h2 : evKey i (t, Msg.noteOn note vel ch2 d) = some ((i : Nat), ch, p) := by
              obtain ⟨rfl, rfl⟩ := hcd
              rfl
            rw [h1, if_pos (by simpa using h2)]
            rw [List.map_cons, ← ih]
            rfl
          · have h1 : keyTraceF ch p (t, .noteOn note vel ch2 d) = none := by
              simp [keyTraceF, hcd]
            have h2 : ¬(evKey i (t, Msg.noteOn note vel ch2 d) = some ((i : Nat), ch, p)) := by
              intro hc
              apply hcd
              have hinj := Option.some.inj hc
              exact ⟨congrArg (fun q : NKey => q.2.1) hinj,
                congrArg (fun q : NKey => q.2.2) hinj⟩
            rw [h1, if_neg (by simpa using h2)]
            exact ih
      | noteOff note vel ch2 d =>
          by_cases hcd : ch2 = ch ∧ note = p
          · have h1 : keyTraceF ch p (t, .noteOff note vel ch2 d) = some (t, true, vel) := by
              simp [keyTraceF, hcd]
            have h2 : evKey i (t, Msg.noteOff note vel ch2 d) = some ((i : Nat), ch, p) := by
              obtain ⟨rfl, rfl⟩ := hcd
              rfl
            rw [h1, if_pos (by simpa using h2)]
            rw [List.map_cons, ← ih]
            rfl
          · have h1 : keyTraceF ch p (t, .noteOff note vel ch2 d) = none := by
              simp [keyTraceF, hcd]
            have h2 : ¬(evKey i (t, Msg.noteOff note vel ch2 d) = some ((i : Nat), ch, p)) := by
              intro hc
              apply hcd
              have hinj := Option.some.inj hc
              exact ⟨congrArg (fun q : NKey => q.2.1) hinj,
                congrArg (fun q : NKey => q.2.2) hinj⟩
            rw [h1, if_neg (by simpa using h2)]
            exact ih
      | meta d =>
          have h2 : ¬(evKey i ((t, Msg.meta d)) = some ((i : Nat), ch, p)) := by
            intro hc
            cases hc
          rw [if_neg (by simpa using h2)]
          exact ih

theorem map_eq_three {α β : Type} (f : α → β) (l : List α) (a b c : β)
    (h : l.map f = [a, b, c]) :
    ∃ x y z, l = [x, y, z] ∧ f x = a ∧ f y = b ∧ f z = c := by
  cases l with
  | nil => simp at h
  | cons x l1 =>
      cases l1 with
      | nil => simp at h
      | cons y l2 =>
          cases l2 with
          | nil => simp at h
          | cons z l3 =>
              cases l3 with
              | nil =>
                  simp only [List.map_cons, List.map_nil] at h
                  injection h with h1 h'
                  injection h' with h2 h''
                  injection h'' with h3 _
                  exact ⟨x, y, z, rfl, h1, h2, h3⟩
              | cons w l4 => simp at h

theorem evShape_on_inv (i : Nat) (ch p : Int) (e : Int × Msg) (t v : Int)
    (hk : evKey i e = some ((i : Nat), ch, p)) (hs : evShape e = (t, false, v)) :
    ∃ d, e = (t, Msg.noteOn p v ch d) := by
  obtain ⟨t2, m⟩ := e
  cases m with
  | noteOn note vel ch2 d =>
      have hinj := Option.some.inj hk
      have h1 : ch2 = ch := congrArg (fun q : NKey => q.2.1) hinj
      have h2 : note = p := congrArg (fun q : NKey => q.2.2) hinj
      have h3 : t2 = t := congrArg Prod.fst hs
      have h4 : vel = v := congrArg (fun q : Int × Bool × Int => q.2.2) hs
      exact ⟨d, by rw [h1, h2, h3, h4]⟩
  | noteOff note vel ch2 d =>
      exact absurd (congrArg (fun q : Int × Bool × Int => q.2.1) hs) (by simp [evShape])
  | meta d => cases hk

theorem evShape_off_inv (i : Nat) (ch p : Int) (e : Int × Msg) (t v : Int)
    (hk : evKey i e = some ((i : Nat), ch, p)) (hs : evShape e = (t, true, v)) :
    ∃ d, e = (t, Msg.noteOff p v ch d) := by
  obtain ⟨t2, m⟩ := e
  cases m with
  | noteOn note vel ch2 d =>
      exact absurd (congrArg (fun q : Int × Bool × Int => q.2.1) hs) (by simp [evShape])
  | noteOff note vel ch2 d =>
      have hinj := Option.some.inj hk
      have h1 : ch2 = ch := congrArg (fun q : NKey => q.2.1) hinj
      have h2 : note = p := congrArg (fun q : NKey => q.2.2) hinj
      have h3 : t2 = t := congrArg Prod.fst hs
      have h4 : vel = v := congrArg (fun q : Int × Bool × Int => q.2.2) hs
      exact ⟨d, by rw [h1, h2, h3, h4]⟩
  | meta d => cases hk

theorem tracksNotes_track_ge :
    ∀ (trs : List (List Msg)) (j : Nat), ∀ n ∈ tracksNotes j trs, j ≤ n.track_idx := by
  intro trs
  induction trs with
  | nil => simp [tracksNotes]
  | cons tr rest ih =>
      intro j n hn
      rw [show tracksNotes j (tr :: rest)
        = trackNotes j tr ++ tracksNotes (j + 1) rest from rfl] at hn
      rcases List.mem_append.mp hn with hn | hn
      · unfold trackNotes at hn
        exact le_of_eq (parseAbs_mem_shape j _ _ n hn).1.symm
      · exact le_trans (by omega) (ih (j + 1) n hn)

theorem tracksNotes_filter_key (P : NoteEvent → Prop) [DecidablePred P] :
    ∀ (trs : List (List Msg)) (j i : Nat), i < trs.length →
      ((tracksNotes j trs).filter fun n => n.track_idx = j + i ∧ P n)
        = (trackNotes (j + i) (trs.getD i [])).filter fun n => P n := by
  intro trs
  induction trs with
  | nil => intro j i h; exact absurd h (by simp)
  | cons tr rest ih =>
      intro j i h
      rw [show tracksNotes j (tr :: rest)
        = trackNotes j tr ++ tracksNotes (j + 1) rest from rfl, List.filter_append]
      cases i with
      | zero =>
          have h1 : ((trackNotes j tr).filter fun n => n.track_idx = j + 0 ∧ P n)
              = (trackNotes j tr).filter fun n => P n := by
            apply List.filter_congr
            intro n hn
            have hidx : n.track_idx = j := by
              unfold trackNotes at hn
              exact (parseAbs_mem_shape j _ _ n hn).1
            simp [hidx]
          have h2 : ((tracksNotes (j + 1) rest).filter
              fun n => n.track_idx = j + 0 ∧ P n) = [] := by
            apply List.filter_eq_nil_iff.mpr
            intro n hn
            have hge : j + 1 ≤ n.track_idx := tracksNotes_track_ge rest (j + 1) n hn
            simp only [decide_eq_true_eq, not_and]
            intro hc
            omega
          rw [h1, h2, List.append_nil]
          rfl
      | succ i2 =>
          have h1 : ((trackNotes j tr).filter
              fun n => n.track_idx = j + (i2 + 1) ∧ P n) = [] := by
            apply List.filter_eq_nil_iff.mpr
            intro n hn
            have hidx : n.track_idx = j := by
              unfold trackNotes at hn
              exact (parseAbs_mem_shape j _ _ n hn).1
            simp only [decide_eq_true_eq, not_and, hidx]
            intro hc
            omega
          rw [h1, List.nil_append]
          have hrec := ih (j + 1) i2 (by simpa using h)
          rw [show j + 1 + i2 = j + (i2 + 1) from by omega] at hrec
          rw [hrec]
          rfl

/-- C2 counterexample: with two note_ons for the same key before the offs,
the dict entry of the first on is overwritten; only one NoteEvent comes out
(from the most recent on), not two, and the second off is ignored. -/
theorem C2_counterexample :
    parse_notes [[Msg.noteOn 60 100 0 0, Msg.noteOn 60 90 0 10,
        Msg.noteOff 60 0 0 10, Msg.noteOff 60 0 0 10]]
      = [⟨60, 64, 10, 20, 0, 0⟩] := by
  rfl

/-- C2 (amended). Event Pairing keeps a single pending on per key, not a
stack: for any stream whose `(channel, pitch)` trace in track `i` consists of
exactly two positive-velocity ons (ticks `t1 < t2` not required) followed by
one off at `t3`, the parse contains exactly ONE note for that key — paired
with the most recent on (`start = t2`) — the earlier on having been
overwritten, rather than the two notes the stack discipline would give. -/
theorem C2_retrigger_amended (tracks : List (List Msg)) (i : Nat)
    (ch p t1 t2 t3 v1 v2 v3 : Int)
    (hi : i < tracks.length)
    (htrace : keyTrace ch p (tracks.getD i [])
      = [(t1, false, v1), (t2, false, v2), (t3, true, v3)])
    (hv1 : 0 < v1) (hv2 : 0 < v2) :
    ((parse_notes tracks).filter
        fun n => n.track_idx = i ∧ n.channel = ch ∧ n.pitch = p)
      = [⟨p, 64, t2, t3, ch, i⟩] := by
  have hA := tracksNotes_filter_key (fun n => n.channel = ch ∧ n.pitch = p) tracks 0 i hi
  simp only [Nat.zero_add] at hA
  rw [parse_notes_tracksNotes, hA]
  have hpeel := parseAbs_peel i ch p (absolutize 0 (tracks.getD i [])) Active.empty
  have hfiltered := List.Perm.filter (fun n => decide (n.channel = ch ∧ n.pitch = p)) hpeel
  rw [List.filter_append] at hfiltered
  have hself : ((parseKey i ch p (Active.empty ((i : Nat), ch, p))
      ((absolutize 0 (tracks.getD i [])).filter
        fun e => evKey i e = some ((i : Nat), ch, p))).filter
        fun n => decide (n.channel = ch ∧ n.pitch = p))
      = parseKey i ch p (Active.empty ((i : Nat), ch, p))
          ((absolutize 0 (tracks.getD i [])).filter
            fun e => evKey i e = some ((i : Nat), ch, p)) := by
    apply List.filter_eq_self.mpr
    intro n hn
    have hf := parseKey_fields i ch p _ _ n hn
    simp [hf.1, hf.2.1]
  have hnil : ((parseAbs i Active.empty ((absolutize 0 (tracks.getD i [])).filter
      fun e => ¬(evKey i e = some ((i : Nat), ch, p)))).filter
        fun n => decide (n.channel = ch ∧ n.pitch = p)) = [] := by
    apply List.filter_eq_nil_iff.mpr
    intro n hn
    rcases (parseAbs_mem_shape i _ _ n hn).2 with ⟨e, he, hke⟩
    have hne := (List.mem_filter.mp he).2
    simp only [decide_eq_true_eq] at hne ⊢
    intro hc
    rw [hc.1, hc.2] at hke
    exact hne hke
  rw [hself, hnil, List.append_nil] at hfiltered
  have hmap : (((absolutize 0 (tracks.getD i [])).filter
      fun e => evKey i e = some ((i : Nat), ch, p)).map evShape)
      = [(t1, false, v1), (t2, false, v2), (t3, true, v3)] := by
    rw [← filterMap_keyTraceF i ch p]
    exact htrace
  rcases map_eq_three _ _ _ _ _ hmap with ⟨e1, e2, e3, heq, hs1, hs2, hs3⟩
  have hk1 : evKey i e1 = some ((i : Nat), ch, p) := by
    have hmem : e1 ∈ (absolutize 0 (tracks.getD i [])).filter
        fun e => evKey i e = some ((i : Nat), ch, p) := by
      rw [heq]
      simp
    simpa using (List.mem_filter.mp hmem).2
  have hk2 : evKey i e2 = some ((i : Nat), ch, p) := by
    have hmem : e2 ∈ (absolutize 0 (tracks.getD i [])).filter
        fun e => evKey i e = some ((i : Nat), ch, p) := by
      rw [heq]
      simp
    simpa using (List.mem_filter.mp hmem).2
  have hk3 : evKey i e3 = some ((i : Nat), ch, p) := by
    have hmem : e3 ∈ (absolutize 0 (tracks.getD i [])).filter
        fun e => evKey i e = some ((i : Nat), ch, p) := by
      rw [heq]
      simp
    simpa using (List.mem_filter.mp hmem).2
  rcases evShape_on_inv i ch p e1 t1 v1 hk1 hs1 with ⟨d1, rfl⟩
  rcases evShape_on_inv i ch p e2 t2 v2 hk2 hs2 with ⟨d2, rfl⟩
  rcases evShape_off_inv i ch p e3 t3 v3 hk3 hs3 with ⟨d3, rfl⟩
  rw [heq] at hfiltered
  have hcompute : parseKey i ch p (Active.empty ((i : Nat), ch, p))
      [(t1, Msg.noteOn p v1 ch d1), (t2, Msg.noteOn p v2 ch d2),
        (t3, Msg.noteOff p v3 ch d3)]
      = [⟨p, 64, t2, t3, ch, i⟩] := by
    show parseKey i ch p none _ = _
    rw [parseKey_on_pos hv1, parseKey_on_pos hv2, parseKey_off_some]
    rfl
  rw [hcompute] at hfiltered
  exact List.perm_singleton.mp hfiltered

/-- Witness for C2 at a concrete retrigger stream. -/
theorem C2_retrigger_amended_witness :
    ((parse_notes [[Msg.noteOn 60 100 0 0, Msg.noteOn 60 90 0 10,
        Msg.noteOff 60 0 0 10]]).filter
        fun n => n.track_idx = 0 ∧ n.channel = 0 ∧ n.pitch = 60)
      = [⟨60, 64, 10, 20, 0, 0⟩] :=
  C2_retrigger_amended _ 0 0 60 0 10 20 100 90 0
    (by decide) (by decide) (by decide) (by decide)

/-! ## C6: reconstruction round trip -/

/-- The `(pitch, start_tick, end_tick, channel)` projection the round-trip
claim compares. -/
def tuple (n : NoteEvent) : Int × Int × Int × Int :=
  (n.pitch, n.start_tick, n.end_tick, n.channel)

/-- The absolute events produced by re-absolutizing `deltaEncode` output:
each triple keeps its tick; the message's delta is the gap to the previous
tick. -/
def absEvsOf (prev : Int) : List (Int × Bool × NoteEvent) → List (Int × Msg)
  | [] => []
  | (t, isOff, n) :: rest =>
      (t, if isOff then Msg.noteOff n.pitch 0 n.channel (t - prev)
          else Msg.noteOn n.pitch n.velocity n.channel (t - prev)) :: absEvsOf t rest

/-- The shape (`(tick, kind, velocity-as-read-by-the-parser)`) of a
reconstructed triple. -/
def tripShape (trip : Int × Bool × NoteEvent) : Int × Bool × Int :=
  (trip.1, trip.2.1, if trip.2.1 then 0 else trip.2.2.velocity)

/-- Strict order on reconstruction events by sort rank. -/
def evLt (a b : Int × Bool × NoteEvent) : Prop := evRank a < evRank b

instance : IsTrans (Int × Bool × NoteEvent) evLt := ⟨fun _ _ _ h1 h2 => lt_trans h1 h2⟩

instance : IsAntisymm (Int × Bool × NoteEvent) evLt :=
  ⟨fun _ _ h1 h2 => absurd (lt_trans h1 h2) (lt_irrefl _)⟩

theorem absolutize_deltaEncode :
    ∀ (l : List (Int × Bool × NoteEvent)) (t0 : Int),
      absolutize t0 (deltaEncode t0 l) = absEvsOf t0 l := by
  intro l
  induction l with
  | nil => intro t0; rfl
  | cons trip rest ih =>
      intro t0
      obtain ⟨t, isOff, n⟩ := trip
      cases isOff with
      | false =>
          show absolutize t0 (Msg.noteOn n.pitch n.velocity n.channel (t - t0)
            :: deltaEncode t rest) = _
          rw [show absolutize t0 (Msg.noteOn n.pitch n.velocity n.channel (t - t0)
              :: deltaEncode t rest)
            = (t0 + (t - t0), Msg.noteOn n.pitch n.velocity n.channel (t - t0))
                :: absolutize (t0 + (t - t0)) (deltaEncode t rest) from rfl]
          rw [show t0 + (t - t0) = t from by ring, ih t]
          rfl
      | true =>
          show absolutize t0 (Msg.noteOff n.pitch 0 n.channel (t - t0)
            :: deltaEncode t rest) = _
          rw [show absolutize t0 (Msg.noteOff n.pitch 0 n.channel (t - t0)
              :: deltaEncode t rest)
            = (t0 + (t - t0), Msg.noteOff n.pitch 0 n.channel (t - t0))
                :: absolutize (t0 + (t - t0)) (deltaEncode t rest) from rfl]
          rw [show t0 + (t - t0) = t from by ring, ih t]
          rfl

/-- Meta messages with delta 0 at the head of a track change nothing. -/
theorem parseAbs_meta_prefix (i : Nat) :
    ∀ (metas : List Msg), (∀ m ∈ metas, Msg.isMeta m = true ∧ m.time = 0) →
      ∀ (msgs : List Msg) (a : Active),
        parseAbs i a (absolutize 0 (metas ++ msgs)) = parseAbs i a (absolutize 0 msgs) := by
  intro metas
  induction metas with
  | nil => intro _ msgs a; rfl
  | cons m metas ih =>
      intro h msgs a
      have hm := h m (by simp)
      obtain ⟨d⟩ := (by
        cases m with
        | meta d => exact ⟨d, rfl⟩
        | noteOn note vel ch t => exact absurd hm.1 (by simp [Msg.isMeta])
        | noteOff note vel ch t => exact absurd hm.1 (by simp [Msg.isMeta])
        : ∃ d, m = Msg.meta d)
      rename_i hmd
      subst hmd
      have hd : d = 0 := hm.2
      subst hd
      show parseAbs i a ((0 + (0 : Int), Msg.meta 0)
        :: absolutize (0 + (0 : Int)) (metas ++ msgs)) = _
      rw [parseAbs_meta, show (0 : Int) + 0 = 0 from rfl]
      exact ih (fun m2 hm2 => h m2 (by simp [hm2])) msgs a

theorem mapIdx_congr_fun {α β : Type} :
    ∀ (l : List α) (f g : Nat → α → β), (∀ j x, f j x = g j x) →
      l.mapIdx f = l.mapIdx g := by
  intro l
  induction l with
  | nil => intro f g _; rfl
  | cons x l ih =>
      intro f g h
      rw [List.mapIdx_cons, List.mapIdx_cons, h 0 x,
        ih (fun j => f (j + 1)) (fun j => g (j + 1)) (fun j y => h (j + 1) y)]

theorem absEvsOf_mem_key (i : Nat) :
    ∀ (l : List (Int × Bool × NoteEvent)) (prev : Int), ∀ e ∈ absEvsOf prev l,
      ∃ trip ∈ l, evKey i e = some ((i : Nat), trip.2.2.channel, trip.2.2.pitch) := by
  intro l
  induction l with
  | nil => simp [absEvsOf]
  | cons trip rest ih =>
      intro prev e he
      obtain ⟨t, isOff, n⟩ := trip
      rw [show absEvsOf prev ((t, isOff, n) :: rest)
        = (t, if isOff then Msg.noteOff n.pitch 0 n.channel (t - prev)
            else Msg.noteOn n.pitch n.velocity n.channel (t - prev))
          :: absEvsOf t rest from rfl] at he
      rcases List.mem_cons.mp he with rfl | he
      · refine ⟨(t, isOff, n), by simp, ?_⟩
        cases isOff with
        | false => rfl
        | true => rfl
      · rcases ih t e he with ⟨trip2, htrip2, hk⟩
        exact ⟨trip2, by simp [htrip2], hk⟩

theorem absEvsOf_filter_shape (i : Nat) (ch p : Int) :
    ∀ (l : List (Int × Bool × NoteEvent)) (prev : Int),
      (((absEvsOf prev l).filter fun e => evKey i e = some ((i : Nat), ch, p)).map evShape)
        = ((l.filter fun trip => trip.2.2.channel = ch ∧ trip.2.2.pitch = p).map tripShape) := by
  intro l
  induction l with
  | nil => intro prev; rfl
  | cons trip rest ih =>
      intro prev
      obtain ⟨t, isOff, n⟩ := trip
      cases isOff with
      | false =>
          rw [show absEvsOf prev ((t, false, n) :: rest)
            = (t, Msg.noteOn n.pitch n.velocity n.channel (t - prev))
              :: absEvsOf t rest from rfl]
          rw [List.filter_cons, List.filter_cons]
          by_cases hkp : n.channel = ch ∧ n.pitch = p
          · have h1 : evKey i (t, Msg.noteOn n.pitch n.velocity n.channel (t - prev))
                = some ((i : Nat), ch, p) := by
              obtain ⟨hc, hp⟩ := hkp
              simp [evKey, hc, hp]
            rw [if_pos (by simpa using h1), if_pos (by simpa using hkp)]
            rw [List.map_cons, List.map_cons, ih t]
            rfl
          · have h1 : ¬(evKey i (t, Msg.noteOn n.pitch n.velocity n.channel (t - prev))
                = some ((i : Nat), ch, p)) := by
              intro hc
              apply hkp
              have hinj := Option.some.inj hc
              exact ⟨congrArg (fun q : NKey => q.2.1) hinj,
                congrArg (fun q : NKey => q.2.2) hinj⟩
            rw [if_neg (by simpa using h1), if_neg (by simpa using hkp)]
            exact ih t
      | true =>
          rw [show absEvsOf prev ((t, true, n) :: rest)
            = (t, Msg.noteOff n.pitch 0 n.channel (t - prev))
              :: absEvsOf t rest from rfl]
          rw [List.filter_cons, List.filter_cons]
          by_cases hkp : n.channel = ch ∧ n.pitch = p
          · have h1 : evKey i (t, Msg.noteOff n.pitch 0 n.channel (t - prev))
                = some ((i : Nat), ch, p) := by
              obtain ⟨hc, hp⟩ := hkp
              simp [evKey, hc, hp]
            rw [if_pos (by simpa using h1), if_pos (by simpa using hkp)]
            rw [List.map_cons, List.map_cons, ih t]
            rfl
          · have h1 : ¬(evKey i (t, Msg.noteOff n.pitch 0 n.channel (t - prev))
                = some ((i : Nat), ch, p)) := by
              intro hc
              apply hkp
              have hinj := Option.some.inj hc
              exact ⟨congrArg (fun q : NKey => q.2.1) hinj,
                congrArg (fun q : NKey => q.2.2) hinj⟩
            rw [if_neg (by simpa using h1), if_neg (by simpa using hkp)]
            exact ih t

theorem filter_flatMap_noteEvents (q : NoteEvent → Bool) :
    ∀ ns : List NoteEvent,
      ((ns.flatMap noteEvents).filter fun trip => q trip.2.2)
        = (ns.filter q).flatMap noteEvents := by
  intro ns
  induction ns with
  | nil => rfl
  | cons n ns ih =>
      rw [List.flatMap_cons, List.filter_append, ih, List.filter_cons]
      by_cases hq : q n = true
      · rw [if_pos hq, List.flatMap_cons]
        congr 1
        show List.filter _ [(n.start_tick, false, n), (n.end_tick, true, n)] = _
        rw [List.filter_cons, List.filter_cons]
        simp [hq, noteEvents]
      · rw [if_neg hq]
        have : (noteEvents n).filter (fun trip => q trip.2.2) = [] := by
          show List.filter _ [(n.start_tick, false, n), (n.end_tick, true, n)] = _
          rw [List.filter_cons, List.filter_cons]
          simp [hq]
        rw [this, List.nil_append]

/-- Running the per-key pairing automaton over events realizing the canonical
alternating on/off trace of a note list recovers exactly those notes, with
velocity 64 and the key's channel and pitch. -/
theorem parseKey_run (i : Nat) (ch p : Int) :
    ∀ (ms : List NoteEvent) (evs : List (Int × Msg)),
      (∀ e ∈ evs, evKey i e = some ((i : Nat), ch, p)) →
      evs.map evShape
        = ms.flatMap (fun n =>
            [(n.start_tick, false, n.velocity), (n.end_tick, true, (0 : Int))]) →
      (∀ n ∈ ms, 0 < n.velocity) →
      parseKey i ch p none evs
        = ms.map fun n => ⟨p, 64, n.start_tick, n.end_tick, ch, i⟩ := by
  intro ms
  induction ms with
  | nil =>
      intro evs _ hshape _
      have hnil : evs = [] := by
        cases evs with
        | nil => rfl
        | cons e l => simp at hshape
      rw [hnil]
      rfl
  | cons n ms ih =>
      intro evs hkey hshape hvel
      rw [List.flatMap_cons] at hshape
      cases evs with
      | nil => simp at hshape
      | cons e1 evs1 =>
          cases evs1 with
          | nil =>
              rw [List.map_cons, List.map_nil] at hshape
              injection hshape with h1 h2
              exact absurd h2.symm (List.cons_ne_nil _ _)
          | cons e2 evs2 =>
              rw [List.map_cons, List.map_cons] at hshape
              injection hshape with h1 hrest
              injection hrest with h2 h3
              obtain ⟨d1, he1⟩ :=
                evShape_on_inv i ch p e1 n.start_tick n.velocity (hkey e1 (by simp)) h1
              obtain ⟨d2, he2⟩ :=
                evShape_off_inv i ch p e2 n.end_tick 0 (hkey e2 (by simp)) h2
              subst he1
              subst he2
              rw [parseKey_on_pos (hvel n (by simp)), parseKey_off_some, List.map_cons]
              congr 1
              exact ih evs2 (fun e he => hkey e (by simp [he])) h3
                (fun m hm => hvel m (by simp [hm]))

/-- The canonical event list of a strictly separated, duration-consistent
note list is strictly increasing in sort rank. -/
theorem canonical_pairwise_lt :
    ∀ ms : List NoteEvent,
      List.Pairwise (fun n1 n2 => n1.end_tick < n2.start_tick) ms →
      (∀ n ∈ ms, n.start_tick ≤ n.end_tick) →
      List.Pairwise evLt (ms.flatMap noteEvents) := by
  have chain : ∀ ms : List NoteEvent,
      List.Pairwise (fun n1 n2 => n1.end_tick < n2.start_tick) ms →
      (∀ n ∈ ms, n.start_tick ≤ n.end_tick) →
      List.Chain' evLt (ms.flatMap noteEvents) := by
    intro ms
    induction ms with
    | nil => intro _ _; exact List.chain'_nil
    | cons n ms ih =>
        intro hord hse
        have hne : n.start_tick ≤ n.end_tick := hse n (by simp)
        have htail := ih hord.of_cons (fun m hm => hse m (by simp [hm]))
        cases ms with
        | nil =>
            show List.Chain' evLt [(n.start_tick, false, n), (n.end_tick, true, n)]
            refine List.chain'_cons.mpr ⟨?_, List.chain'_singleton _⟩
            show evRank (n.start_tick, false, n) < evRank (n.end_tick, true, n)
            simp only [evRank]
            norm_num
            linarith
        | cons n2 ms2 =>
            have hsep : n.end_tick < n2.start_tick :=
              (List.pairwise_cons.mp hord).1 n2 (by simp)
            rw [List.flatMap_cons] at htail
            show List.Chain' evLt ((n.start_tick, false, n) :: (n.end_tick, true, n)
              :: (n2.start_tick, false, n2) :: (n2.end_tick, true, n2)
              :: ms2.flatMap noteEvents)
            refine List.chain'_cons.mpr ⟨?_, List.chain'_cons.mpr ⟨?_, htail⟩⟩
            · show evRank (n.start_tick, false, n) < evRank (n.end_tick, true, n)
              simp only [evRank]
              norm_num
              linarith
            · show evRank (n.end_tick, true, n) < evRank (n2.start_tick, false, n2)
              simp only [evRank]
              norm_num
              linarith
  intro ms hord hse
  exact List.chain'_iff_pairwise.mp (chain ms hord hse)

/-- Non-overlap of two notes sharing a `(channel, pitch)` key. -/
def sepRel (n1 n2 : NoteEvent) : Prop :=
  n1.channel = n2.channel ∧ n1.pitch = n2.pitch →
    n1.end_tick < n2.start_tick ∨ n2.end_tick < n1.start_tick

theorem sepRel_symm : ∀ {n1 n2 : NoteEvent}, sepRel n1 n2 → sepRel n2 n1 := by
  intro n1 n2 h hk
  rcases h ⟨hk.1.symm, hk.2.symm⟩ with h1 | h1
  · exact Or.inr h1
  · exact Or.inl h1

theorem perm_flatMap {α β : Type} (f : α → List β) :
    ∀ {l1 l2 : List α}, l1.Perm l2 → (l1.flatMap f).Perm (l2.flatMap f) := by
  intro l1 l2 h
  induction h with
  | nil => rfl
  | cons x _ ih =>
      rw [List.flatMap_cons, List.flatMap_cons]
      exact List.Perm.append_left _ ih
  | swap x y l =>
      rw [List.flatMap_cons, List.flatMap_cons, List.flatMap_cons, List.flatMap_cons,
        ← List.append_assoc, ← List.append_assoc]
      exact List.Perm.append_right _ List.perm_append_comm
  | trans _ _ ih1 ih2 => exact ih1.trans ih2

/-- For a strictly separated store, the key-filtered slice of the globally
sorted event list is exactly the canonical event list of that key's notes
sorted by start tick. -/
theorem sorted_filter_canonical (ch p : Int) (ns : List NoteEvent)
    (hse : ∀ n ∈ ns, n.start_tick ≤ n.end_tick)
    (hsep : List.Pairwise sepRel ns) :
    ((sortEvents (ns.flatMap noteEvents)).filter
        fun trip => trip.2.2.channel = ch ∧ trip.2.2.pitch = p)
      = (sortByStart (ns.filter fun n => n.channel = ch ∧ n.pitch = p)).flatMap
          noteEvents := by
  have hpermL : ((sortEvents (ns.flatMap noteEvents)).filter
      fun trip => trip.2.2.channel = ch ∧ trip.2.2.pitch = p).Perm
      ((ns.filter fun n => n.channel = ch ∧ n.pitch = p).flatMap noteEvents) := by
    have h1 := List.Perm.filter
      (fun trip : Int × Bool × NoteEvent =>
        decide (trip.2.2.channel = ch ∧ trip.2.2.pitch = p))
      (List.perm_insertionSort evLe (ns.flatMap noteEvents))
    have h2 : ((ns.flatMap noteEvents).filter
        fun trip => decide (trip.2.2.channel = ch ∧ trip.2.2.pitch = p))
        = (ns.filter fun n => n.channel = ch ∧ n.pitch = p).flatMap noteEvents :=
      filter_flatMap_noteEvents (fun n => decide (n.channel = ch ∧ n.pitch = p)) ns
    exact h1.trans (by rw [h2])
  have hpermR : ((sortByStart (ns.filter fun n => n.channel = ch ∧ n.pitch = p)).flatMap
      noteEvents).Perm
      ((ns.filter fun n => n.channel = ch ∧ n.pitch = p).flatMap noteEvents) :=
    perm_flatMap noteEvents (List.perm_insertionSort startLe _)
  have hperm := hpermL.trans hpermR.symm
  have hsub : (sortByStart (ns.filter fun n => n.channel = ch ∧ n.pitch = p))
      ⊆ (ns.filter fun n => n.channel = ch ∧ n.pitch = p) :=
    (List.perm_insertionSort startLe _).subset
  have hkeyms : ∀ n ∈ sortByStart (ns.filter fun n => n.channel = ch ∧ n.pitch = p),
      n.channel = ch ∧ n.pitch = p := by
    intro n hn
    have := (List.mem_filter.mp (hsub hn)).2
    simpa using this
  have hsems : ∀ n ∈ sortByStart (ns.filter fun n => n.channel = ch ∧ n.pitch = p),
      n.start_tick ≤ n.end_tick := by
    intro n hn
    exact hse n (List.mem_filter.mp (hsub hn)).1
  have hsep1 : List.Pairwise sepRel (ns.filter fun n => n.channel = ch ∧ n.pitch = p) :=
    List.Pairwise.sublist (List.filter_sublist _) hsep
  have hsep2 : List.Pairwise sepRel
      (sortByStart (ns.filter fun n => n.channel = ch ∧ n.pitch = p)) :=
    (List.Perm.pairwise_iff (fun h => sepRel_symm h)
      (List.perm_insertionSort startLe _)).mpr hsep1
  have hstart : List.Pairwise startLe
      (sortByStart (ns.filter fun n => n.channel = ch ∧ n.pitch = p)) :=
    List.sorted_insertionSort startLe _
  have hord : List.Pairwise (fun n1 n2 => n1.end_tick < n2.start_tick)
      (sortByStart (ns.filter fun n => n.channel = ch ∧ n.pitch = p)) := by
    refine List.Pairwise.imp_of_mem ?_ (hstart.and hsep2)
    intro a b ha hb hab
    have hka := hkeyms a ha
    have hkb := hkeyms b hb
    rcases hab.2 ⟨hka.1.trans hkb.1.symm, hka.2.trans hkb.2.symm⟩ with hd | hd
    · exact hd
    · have hbse := hsems b hb
      exact absurd (lt_of_le_of_lt (le_trans hab.1 hbse) hd) (lt_irrefl _)
  have hltR : List.Pairwise evLt
      ((sortByStart (ns.filter fun n => n.channel = ch ∧ n.pitch = p)).flatMap
        noteEvents) :=
    canonical_pairwise_lt _ hord hsems
  have hneR : List.Pairwise (fun a b => evRank a ≠ evRank b)
      ((sortByStart (ns.filter fun n => n.channel = ch ∧ n.pitch = p)).flatMap
        noteEvents) :=
    hltR.imp (fun h => ne_of_lt h)
  have hnodR : (((sortByStart (ns.filter fun n => n.channel = ch ∧ n.pitch = p)).flatMap
      noteEvents).map evRank).Nodup :=
    List.pairwise_map.mpr hneR
  have hnodL : ((((sortEvents (ns.flatMap noteEvents)).filter
      fun trip => trip.2.2.channel = ch ∧ trip.2.2.pitch = p)).map evRank).Nodup :=
    ((hperm.map evRank).nodup_iff).mpr hnodR
  have hneL : List.Pairwise (fun a b => evRank a ≠ evRank b)
      ((sortEvents (ns.flatMap noteEvents)).filter
        fun trip => trip.2.2.channel = ch ∧ trip.2.2.pitch = p) :=
    List.pairwise_map.mp hnodL
  have hsortedL : List.Pairwise evLe
      ((sortEvents (ns.flatMap noteEvents)).filter
        fun trip => trip.2.2.channel = ch ∧ trip.2.2.pitch = p) :=
    List.Pairwise.sublist (List.filter_sublist _)
      (List.sorted_insertionSort evLe (ns.flatMap noteEvents))
  have hltL : List.Pairwise evLt
      ((sortEvents (ns.flatMap noteEvents)).filter
        fun trip => trip.2.2.channel = ch ∧ trip.2.2.pitch = p) := by
    refine List.Pairwise.imp ?_ (hsortedL.and hneL)
    intro a b hab
    exact lt_of_le_of_ne hab.1 hab.2
  exact List.eq_of_perm_of_sorted hperm hltL hltR

theorem map_tripShape_flatMap :
    ∀ ms : List NoteEvent,
      ((ms.flatMap noteEvents).map tripShape)
        = ms.flatMap (fun n =>
            [(n.start_tick, false, n.velocity), (n.end_tick, true, (0 : Int))]) := by
  intro ms
  induction ms with
  | nil => rfl
  | cons n ms ih =>
      rw [List.flatMap_cons, List.flatMap_cons, List.map_append, ih]
      rfl

/-- One reconstructed track (zero-delta metas, then the derived note
messages) parses back to exactly the stored notes of that track, as a
multiset of `(pitch, start, end, channel)` tuples. -/
theorem trackNotes_recon_perm (i : Nat) (metas : List Msg) (ns : List NoteEvent)
    (hmeta : ∀ m ∈ metas, Msg.isMeta m = true ∧ m.time = 0)
    (hvel : ∀ n ∈ ns, 0 < n.velocity)
    (hse : ∀ n ∈ ns, n.start_tick ≤ n.end_tick)
    (hsep : List.Pairwise sepRel ns) :
    ((trackNotes i (metas ++ trackMsgs ns)).map tuple).Perm (ns.map tuple) := by
  have h0 : trackNotes i (metas ++ trackMsgs ns)
      = parseAbs i Active.empty (absolutize 0 (trackMsgs ns)) := by
    show parseAbs i Active.empty (absolutize 0 (metas ++ trackMsgs ns)) = _
    exact parseAbs_meta_prefix i metas hmeta (trackMsgs ns) Active.empty
  have h1 : absolutize 0 (trackMsgs ns)
      = absEvsOf 0 (sortEvents (ns.flatMap noteEvents)) := by
    show absolutize 0 (deltaEncode 0 (sortEvents (ns.flatMap noteEvents))) = _
    exact absolutize_deltaEncode _ 0
  rw [h0, h1]
  have hcov : ∀ e ∈ absEvsOf 0 (sortEvents (ns.flatMap noteEvents)),
      ∀ k : NKey, evKey i e = some k → (k.2.1, k.2.2) ∈ (ns.map noteKey).dedup := by
    intro e he k hk
    rcases absEvsOf_mem_key i _ 0 e he with ⟨trip, htrip, hk2⟩
    have htrip2 : trip ∈ ns.flatMap noteEvents :=
      (List.perm_insertionSort evLe _).subset htrip
    rcases List.mem_flatMap.mp htrip2 with ⟨n, hn, hmem⟩
    have hnn : trip.2.2 = n := by
      rcases List.mem_cons.mp hmem with h | hmem2
      · rw [h]
      · rcases List.mem_cons.mp hmem2 with h | h
        · rw [h]
        · exact absurd h (List.not_mem_nil _)
    have hkk : k = ((i : Nat), trip.2.2.channel, trip.2.2.pitch) :=
      Option.some.inj (hk.symm.trans hk2)
    rw [hkk, hnn]
    exact List.mem_dedup.mpr (List.mem_map.mpr ⟨n, hn, rfl⟩)
  have hjoin := parseAbs_join i ((ns.map noteKey).dedup)
    (absEvsOf 0 (sortEvents (ns.flatMap noteEvents))) Active.empty
    (List.nodup_dedup _) hcov
  have hcomp : ∀ kp ∈ (ns.map noteKey).dedup,
      parseKey i kp.1 kp.2 (Active.empty (i, kp.1, kp.2))
        ((absEvsOf 0 (sortEvents (ns.flatMap noteEvents))).filter
          fun e => evKey i e = some ((i : Nat), kp.1, kp.2))
      = (sortByStart (ns.filter fun n => n.channel = kp.1 ∧ n.pitch = kp.2)).map
          fun n => (⟨kp.2, 64, n.start_tick, n.end_tick, kp.1, i⟩ : NoteEvent) := by
    intro kp _
    have hkeys : ∀ e ∈ (absEvsOf 0 (sortEvents (ns.flatMap noteEvents))).filter
        (fun e => evKey i e = some ((i : Nat), kp.1, kp.2)),
        evKey i e = some ((i : Nat), kp.1, kp.2) := by
      intro e he
      exact of_decide_eq_true (List.mem_filter.mp he).2
    have hshape : (((absEvsOf 0 (sortEvents (ns.flatMap noteEvents))).filter
        fun e => evKey i e = some ((i : Nat), kp.1, kp.2)).map evShape)
        = (sortByStart (ns.filter fun n => n.channel = kp.1 ∧ n.pitch = kp.2)).flatMap
            (fun n => [(n.start_tick, false, n.velocity), (n.end_tick, true, (0 : Int))]) := by
      rw [absEvsOf_filter_shape i kp.1 kp.2 _ 0,
        sorted_filter_canonical kp.1 kp.2 ns hse hsep]
      exact map_tripShape_flatMap _
    have hvels : ∀ n ∈ sortByStart (ns.filter fun n => n.channel = kp.1 ∧ n.pitch = kp.2),
        0 < n.velocity := by
      intro n hn
      exact hvel n (List.mem_filter.mp ((List.perm_insertionSort startLe _).subset hn)).1
    exact parseKey_run i kp.1 kp.2 _ _ hkeys hshape hvels
  have hpart : (((ns.map noteKey).dedup.map fun kp =>
      ns.filter fun n => noteKey n = kp).flatten).Perm ns :=
    filter_partition_perm noteKey _ ns (List.nodup_dedup _)
      (fun x hx => List.mem_dedup.mpr (List.mem_map.mpr ⟨x, hx, rfl⟩))
  have hF2 : List.Forall₂ List.Perm
      (((ns.map noteKey).dedup.map fun kp =>
          parseKey i kp.1 kp.2 (Active.empty (i, kp.1, kp.2))
            ((absEvsOf 0 (sortEvents (ns.flatMap noteEvents))).filter
              fun e => evKey i e = some ((i : Nat), kp.1, kp.2))).map (List.map tuple))
      (((ns.map noteKey).dedup.map fun kp =>
          ns.filter fun n => noteKey n = kp).map (List.map tuple)) := by
    rw [List.forall₂_map_left_iff, List.forall₂_map_right_iff,
      List.forall₂_map_left_iff, List.forall₂_map_right_iff]
    refine List.forall₂_same.mpr ?_
    intro kp hkp
    have hfc : (ns.filter fun n => n.channel = kp.1 ∧ n.pitch = kp.2)
        = ns.filter fun n => noteKey n = kp := by
      apply List.filter_congr
      intro x _
      apply decide_eq_decide.mpr
      constructor
      · intro h
        show noteKey x = kp
        unfold noteKey
        rw [h.1, h.2]
      · intro h
        exact ⟨congrArg Prod.fst h, congrArg Prod.snd h⟩
    show (List.map tuple (parseKey i kp.1 kp.2 (Active.empty (i, kp.1, kp.2))
        ((absEvsOf 0 (sortEvents (ns.flatMap noteEvents))).filter
          fun e => evKey i e = some ((i : Nat), kp.1, kp.2)))).Perm
      (List.map tuple (ns.filter fun n => noteKey n = kp))
    rw [hcomp kp hkp, List.map_map]
    have hcg : ∀ n ∈ sortByStart (ns.filter fun n => n.channel = kp.1 ∧ n.pitch = kp.2),
        (tuple ∘ fun n => (⟨kp.2, 64, n.start_tick, n.end_tick, kp.1, i⟩ : NoteEvent)) n
          = tuple n := by
      intro n hn
      have hk3 : n.channel = kp.1 ∧ n.pitch = kp.2 :=
        of_decide_eq_true
          (List.mem_filter.mp ((List.perm_insertionSort startLe _).subset hn)).2
      show tuple ⟨kp.2, 64, n.start_tick, n.end_tick, kp.1, i⟩ = tuple n
      unfold tuple
      rw [hk3.1, hk3.2]
    rw [List.map_congr_left hcg, ← hfc]
    exact List.Perm.map tuple (List.perm_insertionSort startLe _)
  refine (List.Perm.map tuple hjoin).trans ?_
  rw [List.map_flatten]
  refine (flatten_perm_pointwise hF2).trans ?_
  rw [← List.map_flatten]
  exact List.Perm.map tuple hpart

/-- Non-overlap of two notes sharing a `(track, channel, pitch)` key. -/
def sepRelT (n1 n2 : NoteEvent) : Prop :=
  n1.track_idx = n2.track_idx ∧ n1.channel = n2.channel ∧ n1.pitch = n2.pitch →
    n1.end_tick < n2.start_tick ∨ n2.end_tick < n1.start_tick

instance : DecidableRel sepRelT := fun a b => by unfold sepRelT; infer_instance

/-- Recursive restatement of the `mapIdx` in `reconstruct_midi`, carrying the
track index explicitly. -/
def reconAux (store : List NoteEvent) (j : Nat) : List (List Msg) → List (List Msg)
  | [] => []
  | tr :: rest =>
      (tr.filter Msg.isMeta ++ trackMsgs (store.filter fun n => n.track_idx = j))
        :: reconAux store (j + 1) rest

theorem reconAux_eq (store : List NoteEvent) :
    ∀ (trs : List (List Msg)) (j : Nat),
      (trs.mapIdx fun i2 tr => tr.filter Msg.isMeta
        ++ trackMsgs (store.filter fun n => n.track_idx = j + i2)) = reconAux store j trs := by
  intro trs
  induction trs with
  | nil => intro j; rfl
  | cons tr rest ih =>
      intro j
      rw [List.mapIdx_cons]
      show (tr.filter Msg.isMeta
          ++ trackMsgs (store.filter fun n => n.track_idx = j + 0)) :: _
        = (tr.filter Msg.isMeta
          ++ trackMsgs (store.filter fun n => n.track_idx = j)) :: _
      congr 1
      rw [← ih (j + 1)]
      apply mapIdx_congr_fun
      intro i2 x
      show x.filter Msg.isMeta
          ++ trackMsgs (store.filter fun n => n.track_idx = j + (i2 + 1))
        = x.filter Msg.isMeta
          ++ trackMsgs (store.filter fun n => n.track_idx = (j + 1) + i2)
      rw [show j + (i2 + 1) = (j + 1) + i2 from by omega]

theorem tracksNotes_reconAux_perm (store : List NoteEvent)
    (hvel : ∀ n ∈ store, 0 < n.velocity)
    (hse : ∀ n ∈ store, n.start_tick ≤ n.end_tick) :
    ∀ (origTracks : List (List Msg)) (j : Nat),
      (∀ tr ∈ origTracks, ∀ m ∈ tr, Msg.isMeta m = true → m.time = 0) →
      (∀ i2 : Nat, List.Pairwise sepRel (store.filter fun n => n.track_idx = i2)) →
      ((tracksNotes j (reconAux store j origTracks)).map tuple).Perm
        ((((List.range origTracks.length).map fun i2 =>
            store.filter fun n => n.track_idx = j + i2).flatten).map tuple) := by
  intro origTracks
  induction origTracks with
  | nil =>
      intro j _ _
      simp [reconAux, tracksNotes]
  | cons tr rest ih =>
      intro j hmeta hsepT
      have hmeta2 : ∀ m ∈ tr.filter Msg.isMeta, Msg.isMeta m = true ∧ m.time = 0 := by
        intro m hm
        have h2 := List.mem_filter.mp hm
        exact ⟨h2.2, hmeta tr (by simp) m h2.1 h2.2⟩
      have hhead := trackNotes_recon_perm j (tr.filter Msg.isMeta)
        (store.filter fun n => n.track_idx = j) hmeta2
        (fun n hn => hvel n (List.mem_filter.mp hn).1)
        (fun n hn => hse n (List.mem_filter.mp hn).1)
        (hsepT j)
      have htail := ih (j + 1) (fun tr2 htr2 => hmeta tr2 (by simp [htr2])) hsepT
      show ((trackNotes j (tr.filter Msg.isMeta
          ++ trackMsgs (store.filter fun n => n.track_idx = j))
        ++ tracksNotes (j + 1) (reconAux store (j + 1) rest)).map tuple).Perm _
      rw [List.map_append, List.length_cons, List.range_succ_eq_map, List.map_cons,
        List.map_map, List.flatten_cons, List.map_append]
      have hmapeq : ((List.range rest.length).map
          ((fun i2 => store.filter fun n => n.track_idx = j + i2) ∘ Nat.succ))
          = (List.range rest.length).map
            fun i2 => store.filter fun n => n.track_idx = (j + 1) + i2 := by
        apply List.map_congr_left
        intro i2 _
        show (store.filter fun n => n.track_idx = j + i2.succ) = _
        rw [show j + i2.succ = (j + 1) + i2 from by omega]
      rw [hmapeq]
      exact List.Perm.append hhead htail

/-- C6 counterexample: a meta message with nonzero delta time (5) in the
original track shifts the reconstructed-then-reparsed note by that delta,
because `reconstruct_midi` keeps the meta's delta but restarts the note
deltas at the absolute tick, so the round trip does not reproduce the
store's `(pitch, start_tick, end_tick, channel)` tuples. -/
theorem C6_counterexample :
    parse_notes (reconstruct_midi [[Msg.meta 5]] [⟨60, 64, 0, 10, 0, 0⟩])
      = [⟨60, 64, 5, 15, 0, 0⟩]
    ∧ ¬ ((parse_notes (reconstruct_midi [[Msg.meta 5]] [⟨60, 64, 0, 10, 0, 0⟩])).map tuple
          = ([⟨60, 64, 0, 10, 0, 0⟩] : List NoteEvent).map tuple) := by
  decide

/-- C6: Reconstruction round trip. When every meta message of the original
tracks has delta time 0 and the store avoids the pairing edge cases of
Event Pairing (positive velocities, `start_tick` ≤ `end_tick`, track
indices within the original track list, and strict temporal separation of
notes sharing one `(track, channel, pitch)` key), reconstructing with no
transforms and re-running Event Pairing yields exactly the store's multiset
of `(pitch, start_tick, end_tick, channel)` tuples. Meta events with
nonzero delta times break the property. -/
theorem C6_roundtrip_amended (origTracks : List (List Msg)) (store : List NoteEvent)
    (hmeta : ∀ tr ∈ origTracks, ∀ m ∈ tr, Msg.isMeta m = true → m.time = 0)
    (htrk : ∀ n ∈ store, n.track_idx < origTracks.length)
    (hvel : ∀ n ∈ store, 0 < n.velocity)
    (hse : ∀ n ∈ store, n.start_tick ≤ n.end_tick)
    (hsep : List.Pairwise sepRelT store) :
    ((parse_notes (reconstruct_midi origTracks store)).map tuple).Perm
      (store.map tuple) := by
  rw [parse_notes_tracksNotes]
  have hrc : reconstruct_midi origTracks store = reconAux store 0 origTracks := by
    unfold reconstruct_midi
    rw [← reconAux_eq store origTracks 0]
    apply mapIdx_congr_fun
    intro i2 x
    show x.filter Msg.isMeta ++ trackMsgs (store.filter fun n => n.track_idx = i2)
      = x.filter Msg.isMeta ++ trackMsgs (store.filter fun n => n.track_idx = 0 + i2)
    rw [Nat.zero_add]
  rw [hrc]
  have hsepT : ∀ i2 : Nat,
      List.Pairwise sepRel (store.filter fun n => n.track_idx = i2) := by
    intro i2
    refine List.Pairwise.imp_of_mem ?_
      (List.Pairwise.sublist (List.filter_sublist _) hsep)
    intro a b ha hb hab hk
    have ha2 : a.track_idx = i2 := of_decide_eq_true (List.mem_filter.mp ha).2
    have hb2 : b.track_idx = i2 := of_decide_eq_true (List.mem_filter.mp hb).2
    exact hab ⟨ha2.trans hb2.symm, hk.1, hk.2⟩
  refine (tracksNotes_reconAux_perm store hvel hse origTracks 0 hmeta hsepT).trans ?_
  have hz : ((List.range origTracks.length).map fun i2 =>
      store.filter fun n => n.track_idx = 0 + i2)
      = (List.range origTracks.length).map fun i2 =>
        store.filter fun n => n.track_idx = i2 := by
    apply List.map_congr_left
    intro i2 _
    rw [Nat.zero_add]
  rw [hz]
  exact List.Perm.map tuple
    (filter_partition_perm (fun n => n.track_idx) (List.range origTracks.length) store
      (List.nodup_range _) (fun x hx => List.mem_range.mpr (htrk x hx)))

theorem C6_roundtrip_amended_witness :
    ((parse_notes (reconstruct_midi [[Msg.meta 0]]
        [⟨60, 100, 0, 10, 0, 0⟩, ⟨60, 100, 20, 30, 0, 0⟩])).map tuple).Perm
      (([⟨60, 100, 0, 10, 0, 0⟩, ⟨60, 100, 20, 30, 0, 0⟩] : List NoteEvent).map tuple) :=
  C6_roundtrip_amended [[Msg.meta 0]]
    [⟨60, 100, 0, 10, 0, 0⟩, ⟨60, 100, 20, 30, 0, 0⟩]
    (by decide) (by decide) (by decide) (by decide) (by decide)

/-- Every parsed note's closing event occurs in the event list at the note's
end tick: the stored velocity is 64 when that closer is a `note_off`, and 0
(the closer's own velocity) when it is a velocity-0 `note_on`. -/
theorem parseAbs_closer (i : Nat) :
    ∀ (evs : List (Int × Msg)) (a : Active), ∀ n ∈ parseAbs i a evs,
      ∃ pre e post, evs = pre ++ e :: post
        ∧ e.1 = n.end_tick
        ∧ ((∃ v d, e.2 = Msg.noteOff n.pitch v n.channel d) ∧ n.velocity = 64
           ∨ (∃ d, e.2 = Msg.noteOn n.pitch 0 n.channel d) ∧ n.velocity = 0) := by
  intro evs
  induction evs with
  | nil => simp [parseAbs]
  | cons e0 evs ih =>
      intro a n hn
      obtain ⟨t, m⟩ := e0
      cases m with
      | noteOn note vel ch d =>
          by_cases hv : 0 < vel
          · rw [parseAbs_on_pos hv] at hn
            rcases ih _ n hn with ⟨pre, e, post, heq, h1, h2⟩
            exact ⟨(t, Msg.noteOn note vel ch d) :: pre, e, post, by rw [heq, List.cons_append], h1, h2⟩
          · by_cases hz : vel = 0
            · rcases hcase : a ((i : Nat), ch, note) with _ | st
              · rw [parseAbs_on_zero_none hz hcase] at hn
                rcases ih _ n hn with ⟨pre, e, post, heq, h1, h2⟩
                exact ⟨(t, Msg.noteOn note vel ch d) :: pre, e, post, by rw [heq, List.cons_append], h1, h2⟩
              · rw [parseAbs_on_zero_some hz hcase] at hn
                rcases List.mem_cons.mp hn with rfl | hn
                · refine ⟨[], (t, Msg.noteOn note vel ch d), evs, rfl, rfl,
                    Or.inr ⟨⟨d, ?_⟩, hz⟩⟩
                  rw [hz]
                · rcases ih _ n hn with ⟨pre, e, post, heq, h1, h2⟩
                  exact ⟨(t, Msg.noteOn note vel ch d) :: pre, e, post, by rw [heq, List.cons_append], h1, h2⟩
            · rw [parseAbs_on_neg hv hz] at hn
              rcases ih _ n hn with ⟨pre, e, post, heq, h1, h2⟩
              exact ⟨(t, Msg.noteOn note vel ch d) :: pre, e, post, by rw [heq, List.cons_append], h1, h2⟩
      | noteOff note vel ch d =>
          rcases hcase : a ((i : Nat), ch, note) with _ | st
          · rw [parseAbs_off_none hcase] at hn
            rcases ih _ n hn with ⟨pre, e, post, heq, h1, h2⟩
            exact ⟨(t, Msg.noteOff note vel ch d) :: pre, e, post, by rw [heq, List.cons_append], h1, h2⟩
          · rw [parseAbs_off_some hcase] at hn
            rcases List.mem_cons.mp hn with rfl | hn
            · exact ⟨[], (t, Msg.noteOff note vel ch d), evs, rfl, rfl,
                Or.inl ⟨⟨vel, d, rfl⟩, rfl⟩⟩
            · rcases ih _ n hn with ⟨pre, e, post, heq, h1, h2⟩
              exact ⟨(t, Msg.noteOff note vel ch d) :: pre, e, post, by rw [heq, List.cons_append], h1, h2⟩
      | meta d =>
          rw [parseAbs_meta] at hn
          rcases ih _ n hn with ⟨pre, e, post, heq, h1, h2⟩
          exact ⟨(t, Msg.meta d) :: pre, e, post, by rw [heq, List.cons_append], h1, h2⟩

/-- Every note of the concatenated per-track parses comes from its own
track's isolated parse, located by its `track_idx`. -/
theorem tracksNotes_mem_track :
    ∀ (trs : List (List Msg)) (j : Nat), ∀ n ∈ tracksNotes j trs,
      j ≤ n.track_idx ∧ n.track_idx - j < trs.length
        ∧ n ∈ trackNotes n.track_idx (trs.getD (n.track_idx - j) []) := by
  intro trs
  induction trs with
  | nil => simp [tracksNotes]
  | cons tr rest ih =>
      intro j n hn
      rw [show tracksNotes j (tr :: rest)
        = trackNotes j tr ++ tracksNotes (j + 1) rest from rfl] at hn
      rcases List.mem_append.mp hn with hn | hn
      · have hidx : n.track_idx = j := (parseAbs_mem_shape j _ _ n hn).1
        refine ⟨le_of_eq hidx.symm, ?_, ?_⟩
        · rw [hidx, Nat.sub_self]
          simp
        · rw [hidx, Nat.sub_self]
          exact hn
      · rcases ih (j + 1) n hn with ⟨h1, h2, h3⟩
        refine ⟨by omega, ?_, ?_⟩
        · simp only [List.length_cons]
          omega
        · have hst : n.track_idx - j = (n.track_idx - (j + 1)) + 1 := by omega
          rw [hst]
          exact h3

/-- C10 (confirmed). On every stream, the velocity of every NoteEvent
produced by Event Pairing is determined by the note's own closing event,
never by the opening `note_on`: it is always 0 or 64; each parsed note's
closing event occurs in its track (at absolute ticks) at the note's end
tick, for the note's channel and pitch, and the stored velocity is 64 when
that closer is an explicit `note_off` and 0 when it is a velocity-0
`note_on`; and rewriting every opening note_on velocity by an arbitrary
positivity-preserving function leaves the parse output unchanged — the
opening velocity is discarded. The closer attribution is stated per note,
so streams mixing both closing kinds are covered. -/
theorem C10_velocity_from_closing_event :
    (∀ tracks, ∀ n ∈ parse_notes tracks, n.velocity = 0 ∨ n.velocity = 64)
    ∧ (∀ f tracks, (∀ v, 0 < v → 0 < f v) →
        parse_notes (mapOnVel f tracks) = parse_notes tracks)
    ∧ (∀ tracks, ∀ n ∈ parse_notes tracks,
        ∃ pre e post,
          absolutize 0 (tracks.getD n.track_idx []) = pre ++ e :: post
          ∧ e.1 = n.end_tick
          ∧ ((∃ v d, e.2 = Msg.noteOff n.pitch v n.channel d) ∧ n.velocity = 64
             ∨ (∃ d, e.2 = Msg.noteOn n.pitch 0 n.channel d) ∧ n.velocity = 0)) := by
  refine ⟨?_, ?_, ?_⟩
  · intro tracks
    exact parse_vel_mem tracks 0 Active.empty
  · intro f tracks hf
    exact parse_mapOnVel f hf tracks 0 Active.empty
  · intro tracks n hn
    rw [parse_notes_tracksNotes] at hn
    rcases tracksNotes_mem_track tracks 0 n hn with ⟨_, _, h3⟩
    rw [Nat.sub_zero] at h3
    exact parseAbs_closer n.track_idx (absolutize 0 (tracks.getD n.track_idx []))
      Active.empty n h3

/-- Witness for C10 at concrete streams, including a mixed stream whose two
notes are closed by a velocity-0 note_on and an explicit note_off. -/
theorem C10_velocity_witness :
    parse_notes (mapOnVel (fun v => v + 20) [[Msg.noteOn 60 100 0 0, Msg.noteOff 60 0 0 10]])
      = parse_notes [[Msg.noteOn 60 100 0 0, Msg.noteOff 60 0 0 10]]
    ∧ (∀ n ∈ parse_notes [[Msg.noteOn 60 100 0 0, Msg.noteOn 60 0 0 10,
          Msg.noteOn 61 100 0 0, Msg.noteOff 61 0 0 5]], n.velocity = 0 ∨ n.velocity = 64)
    ∧ (∃ pre e post,
        absolutize 0 ([[Msg.noteOn 60 100 0 0, Msg.noteOn 60 0 0 10,
            Msg.noteOn 61 100 0 0, Msg.noteOff 61 0 0 5]].getD 0 []) = pre ++ e :: post
        ∧ e.1 = 10
        ∧ ((∃ v d, e.2 = Msg.noteOff 60 v 0 d) ∧ (0 : Int) = 64
           ∨ (∃ d, e.2 = Msg.noteOn 60 0 0 d) ∧ (0 : Int) = 0)) := by
  have h := C10_velocity_from_closing_event
  exact ⟨h.2.1 _ _ (fun v hv => by omega),
    h.1 _,
    h.2.2 [[Msg.noteOn 60 100 0 0, Msg.noteOn 60 0 0 10,
      Msg.noteOn 61 100 0 0, Msg.noteOff 61 0 0 5]]
      ⟨60, 0, 0, 10, 0, 0⟩ (by decide)⟩
